import Mathlib

/-!
Verification of the Bos-Coster multi-scalar multiplication core
(src/ecmult_multi_impl.h): a scalar max-heap (sift_down, sift_up,
sift_floyd, heapify, initialize, replace, remove) and the driver
secp256k1_ecmult_multi with its reduction loop and binary finishing
ladder.

Embedding conventions:
* Scalars are `Nat` (the C code compares them as unsigned integers and
  only ever shrinks them, so no wraparound can occur on the paths the
  code guarantees; `secp256k1_scalar_numsub` is exact `Nat` subtraction
  under its documented precondition `a >= b`).
* Curve points live in an arbitrary additive commutative monoid `G`;
  the group primitives (gej_add_var, gej_double_var, gej_is_infinity,
  gej_set_infinity) are modelled from the spec as `+`, doubling,
  `= 0`, and `0` since their implementations are outside this
  repository.
* Arrays are total functions `Nat → _` mutated with `updf`; the C heap
  borrows a pointer to the live scalar array, so every heap operation
  here takes the current scalar array as an explicit argument.
* The C `while` loops that are not structurally decreasing take an
  explicit iteration budget (`gas`/`fuel`); a budget that provably
  never runs out on the states the driver reaches.  `MResult.outOfFuel`
  marks an exhausted budget (i.e. a diverging C loop) and
  `MResult.underflow` marks a call to the non-modular subtraction with
  `a < b`, which the C code must never make.
-/

/-- The fixed capacity bound `SECP256K1_ECMULT_MULTI_MAX_N`: indices are
stored in a single byte in the C code. -/
def SECP256K1_ECMULT_MULTI_MAX_N : Nat := 256

/-- Modelled from the spec: `scalarSubtractNonModular(a, b) -> a-b`,
valid only when `a >= b`; `Nat` subtraction agrees with the C value
exactly on that domain. -/
def secp256k1_scalar_numsub (a b : Nat) : Nat := a - b

/-- Pointwise array update, the shallow embedding of `arr[i] = v`. -/
def updf {α : Type} (f : Nat → α) (i : Nat) (v : α) : Nat → α :=
  fun j => if j = i then v else f j

/-- The heap state of `secp256k1_scalar_heap`: the index array `tree`
and the element count `size`.  The C struct also borrows a pointer to
the live scalar array; here each operation receives the current scalar
array explicitly instead. -/
structure secp256k1_scalar_heap where
  tree : Nat → Nat
  size : Nat

/-- The larger-child selection shared by `secp256k1_sift_down` and
`secp256k1_sift_floyd`: initially assume the left child `2*node+1` is
the larger child, and take the right child only when it exists and is
strictly larger. -/
def pickChild (sc : Nat → Nat) (size : Nat) (tree : Nat → Nat) (node : Nat) : Nat :=
  if 2 * node + 2 < size ∧ sc (tree (2 * node + 1)) < sc (tree (2 * node + 2)) then
    2 * node + 2
  else
    2 * node + 1

/-- `secp256k1_sift_down`: restore the max-heap order below `node` by
descending along the larger-child path until the candidate `index` is
strictly greater than the larger child (or a leaf is reached).  `gas`
bounds the iterations of the C `while` loop; `gas = size` always
suffices since `node` at least doubles every round. -/
def secp256k1_sift_down (sc : Nat → Nat) (size : Nat) :
    Nat → (Nat → Nat) → Nat → Nat → (Nat → Nat)
  | 0, tree, node, index => updf tree node index
  | gas + 1, tree, node, index =>
    if node < size / 2 then
      let child := pickChild sc size tree node
      if sc (tree child) < sc index then
        updf tree node index
      else
        secp256k1_sift_down sc size gas (updf tree node (tree child)) child index
    else
      updf tree node index

/-- `secp256k1_sift_up`: move the candidate `index` from `node` toward
the root while it is strictly greater than its parent.  `gas = node`
always suffices since the node index strictly decreases. -/
def secp256k1_sift_up (sc : Nat → Nat) :
    Nat → (Nat → Nat) → Nat → Nat → (Nat → Nat)
  | 0, tree, node, index => updf tree node index
  | gas + 1, tree, node, index =>
    if 0 < node then
      let parent := (node - 1) / 2
      if sc index ≤ sc (tree parent) then
        updf tree node index
      else
        secp256k1_sift_up sc gas (updf tree node (tree parent)) parent index
    else
      updf tree node index

/-- `secp256k1_sift_floyd`: descend along the larger-child path all the
way to a leaf without comparing the candidate, then sift the candidate
up from that leaf. -/
def secp256k1_sift_floyd (sc : Nat → Nat) (size : Nat) :
    Nat → (Nat → Nat) → Nat → Nat → (Nat → Nat)
  | 0, tree, node, index => secp256k1_sift_up sc node tree node index
  | gas + 1, tree, node, index =>
    if node < size / 2 then
      let child := pickChild sc size tree node
      secp256k1_sift_floyd sc size gas (updf tree node (tree child)) child index
    else
      secp256k1_sift_up sc node tree node index

/-- The `while (root-- > 0)` loop of `secp256k1_heapify`: sift down
from roots `root - 1, root - 2, ..., 0` in that order. -/
def secp256k1_heapify_loop (sc : Nat → Nat) (size : Nat) :
    Nat → (Nat → Nat) → (Nat → Nat)
  | 0, tree => tree
  | root + 1, tree =>
    secp256k1_heapify_loop sc size root
      (secp256k1_sift_down sc size size tree root (tree root))

/-- `secp256k1_heapify`: bottom-up heap construction from the last
non-leaf index `size / 2 - 1` down to the root. -/
def secp256k1_heapify (sc : Nat → Nat) (size : Nat) (tree : Nat → Nat) : Nat → Nat :=
  secp256k1_heapify_loop sc size (size / 2) tree

section PointModel

variable {G : Type} [AddCommMonoid G]

/-- The active indices collected by the scan in the heap initializer:
`i` with a non-zero scalar and a point that is not at infinity, in
increasing order of `i`. -/
def activeIndices [DecidableEq G] (sc : Nat → Nat) (pt : Nat → G) (n : Nat) : List Nat :=
  (List.range n).filter (fun i => decide (sc i ≠ 0 ∧ pt i ≠ 0))

/-- The heap-building function (`secp256k1_heap_initialize` in the C
code): scan `[0, n)` appending each active index, then heapify. -/
def secp256k1_heap_init [DecidableEq G] (sc : Nat → Nat) (pt : Nat → G) (n : Nat) :
    secp256k1_scalar_heap :=
  let act := activeIndices sc pt n
  { tree := secp256k1_heapify sc act.length (fun j => act.getD j 0)
    size := act.length }

end PointModel

/-- `secp256k1_replace`: return the old root and install `index` in its
place via sift_floyd; the size is untouched. -/
def secp256k1_replace (sc : Nat → Nat) (heap : secp256k1_scalar_heap) (index : Nat) :
    Nat × secp256k1_scalar_heap :=
  (heap.tree 0,
    { tree := secp256k1_sift_floyd sc heap.size heap.size heap.tree 0 index
      size := heap.size })

/-- `secp256k1_heap_remove`: return the old root, decrement the size,
and (if the heap is still non-empty) sift the logically-last element
down from the root. -/
def secp256k1_heap_remove (sc : Nat → Nat) (heap : secp256k1_scalar_heap) :
    Nat × secp256k1_scalar_heap :=
  let result := heap.tree 0
  let size' := heap.size - 1
  if 0 < size' then
    (result,
      { tree := secp256k1_sift_down sc size' size' heap.tree 0 (heap.tree size')
        size := size' })
  else
    (result, { tree := heap.tree, size := size' })

/-- Outcome of a fueled loop: a value, a call of the non-modular
subtraction with `a < b` (which C must never make), or an exhausted
iteration budget (a diverging C loop). -/
inductive MResult (α : Type) where
  | ok (val : α)
  | underflow
  | outOfFuel
deriving DecidableEq

/-- The mutable state of the driver `secp256k1_ecmult_multi`: the two
scratch arrays, the heap, and the index currently held in hand. -/
structure DriverState (G : Type) where
  sc : Nat → Nat
  pt : Nat → G
  heap : secp256k1_scalar_heap
  first : Nat

section Driver

variable {G : Type} [AddCommMonoid G]

/-- The inner `do { pt[second] = pt[first] + pt[second];
sc[first] = sc[first] - sc[second] } while (sc[first] >= sc[second])`
loop of the driver.  Fuel `sc first + 1` always suffices when
`sc second` is non-zero. -/
def reduceLoop : Nat → Nat → Nat → (Nat → Nat) → (Nat → G) →
    MResult ((Nat → Nat) × (Nat → G))
  | 0, _, _, _, _ => .outOfFuel
  | fuel + 1, first, second, sc, pt =>
    let pt' := updf pt second (pt first + pt second)
    if sc first < sc second then .underflow
    else
      let sc' := updf sc first (secp256k1_scalar_numsub (sc first) (sc second))
      if sc' second ≤ sc' first then reduceLoop fuel first second sc' pt'
      else .ok (sc', pt')

/-- One iteration of the driver's outer `while (heap.size > 0)` loop:
peek the root as `second`, run the inner reduction, then either pop a
fresh `first` (scalar exhausted) or replace the root with `first` and
take the returned old root as the new `first`. -/
def outerBody (st : DriverState G) : MResult (DriverState G) :=
  let second := st.heap.tree 0
  match reduceLoop (st.sc st.first + 1) st.first second st.sc st.pt with
  | .ok scpt =>
    if scpt.1 st.first = 0 then
      let fh := secp256k1_heap_remove scpt.1 st.heap
      .ok { sc := scpt.1, pt := scpt.2, heap := fh.2, first := fh.1 }
    else
      let fh := secp256k1_replace scpt.1 st.heap st.first
      .ok { sc := scpt.1, pt := scpt.2, heap := fh.2, first := fh.1 }
  | .underflow => .underflow
  | .outOfFuel => .outOfFuel

/-- The driver's outer loop, iterated until the heap is empty. -/
def outerLoop : Nat → DriverState G → MResult (DriverState G)
  | fuel, st =>
    if st.heap.size = 0 then .ok st
    else
      match fuel with
      | 0 => .outOfFuel
      | fuel' + 1 =>
        match outerBody st with
        | .ok st' => outerLoop fuel' st'
        | .underflow => .underflow
        | .outOfFuel => .outOfFuel

/-- The finishing binary ladder: extract the least-significant bit of
`sc[first]`; on a set bit add `pt[first]` into `r` and stop if the
scalar is now zero; otherwise double `pt[first]` in place.  Fuel
`sc first + 1` always suffices when `sc first` is non-zero. -/
def ladderLoop : Nat → G → Nat → (Nat → Nat) → (Nat → G) → MResult G
  | 0, _, _, _, _ => .outOfFuel
  | fuel + 1, r, first, sc, pt =>
    let bit := sc first % 2
    let sc' := updf sc first (sc first / 2)
    if bit = 1 then
      let r' := r + pt first
      if sc' first = 0 then .ok r'
      else ladderLoop fuel r' first sc' (updf pt first (pt first + pt first))
    else ladderLoop fuel r first sc' (updf pt first (pt first + pt first))

/-- `secp256k1_ecmult_multi`: set `r` to infinity, build the heap, and
if any term is active pop the largest, run the reduction loop, and
finish the surviving term with the binary ladder.  `fuel` bounds the
outer loop's iterations. -/
def secp256k1_ecmult_multi [DecidableEq G] (fuel : Nat) (sc : Nat → Nat) (pt : Nat → G)
    (n : Nat) : MResult G :=
  let r : G := 0
  let heap := secp256k1_heap_init sc pt n
  if heap.size = 0 then .ok r
  else
    let fh := secp256k1_heap_remove sc heap
    match outerLoop fuel { sc := sc, pt := pt, heap := fh.2, first := fh.1 } with
    | .ok st => ladderLoop (st.sc st.first + 1) r st.first st.sc st.pt
    | .underflow => .underflow
    | .outOfFuel => .outOfFuel

/-- Independent double-and-add reference for a single scalar
multiplication, processing bits least-significant first. -/
def dblAdd : Nat → Nat → G → G
  | 0, _, _ => 0
  | fuel + 1, s, p =>
    if s = 0 then 0
    else (if s % 2 = 1 then p else 0) + dblAdd fuel (s / 2) (p + p)

/-- The naive multi-scalar-multiplication reference: each term by an
independent double-and-add, then sum the results. -/
def naiveMultiScalarMul (sc : Nat → Nat) (pt : Nat → G) (n : Nat) : G :=
  ∑ i ∈ Finset.range n, dblAdd (sc i) (sc i) (pt i)

end Driver

/-- The max-heap invariant: every non-root node of `tree[0..size)` has
a scalar not exceeding its parent's scalar. -/
def IsHeap (sc : Nat → Nat) (tree : Nat → Nat) (size : Nat) : Prop :=
  ∀ j, j < size → 0 < j → sc (tree j) ≤ sc (tree ((j - 1) / 2))

instance (sc tree : Nat → Nat) (size : Nat) : Decidable (IsHeap sc tree size) :=
  Nat.decidableBallLT size _

/-- The multiset of indices stored in `tree[0..size)`. -/
def treeMS (tree : Nat → Nat) (size : Nat) : Multiset Nat :=
  ((List.range size).map tree : List Nat)

/-- Sum of `sc i • pt i` over a multiset of indices. -/
def sumMS {G : Type} [AddCommMonoid G] (sc : Nat → Nat) (pt : Nat → G)
    (m : Multiset Nat) : G :=
  (m.map (fun i => sc i • pt i)).sum

/-- Total of all scalars in `[0, n)`: the driver's termination measure. -/
def scTotal (sc : Nat → Nat) (n : Nat) : Nat := ∑ i ∈ Finset.range n, sc i

/-- The driver's loop invariant: the in-hand index together with the
heap indices are pairwise distinct and below `n`, every heap scalar is
non-zero, the in-hand scalar is non-zero and dominates every heap
scalar, the max-heap order holds, and the configuration's weighted sum
is the target `T`. -/
def DriverInv {G : Type} [AddCommMonoid G] (n : Nat) (T : G) (st : DriverState G) : Prop :=
  (st.first ::ₘ treeMS st.heap.tree st.heap.size).Nodup ∧
  (∀ i ∈ st.first ::ₘ treeMS st.heap.tree st.heap.size, i < n) ∧
  (∀ i ∈ treeMS st.heap.tree st.heap.size, st.sc i ≠ 0) ∧
  st.sc st.first ≠ 0 ∧
  IsHeap st.sc st.heap.tree st.heap.size ∧
  (∀ i ∈ treeMS st.heap.tree st.heap.size, st.sc i ≤ st.sc st.first) ∧
  st.sc st.first • st.pt st.first + sumMS st.sc st.pt (treeMS st.heap.tree st.heap.size) = T

/-! ### Basic facts about `updf` and binary-tree index arithmetic -/

theorem updf_eq {α : Type} (f : Nat → α) (i : Nat) (v : α) : updf f i v i = v := by
  simp [updf]

theorem updf_ne {α : Type} (f : Nat → α) {i j : Nat} (v : α) (h : j ≠ i) :
    updf f i v j = f j := by
  simp [updf, h]

theorem updf_updf {α : Type} (f : Nat → α) (i : Nat) (v w : α) :
    updf (updf f i v) i w = updf f i w := by
  funext j
  by_cases h : j = i <;> simp [updf, h]

theorem parent_of_left (n : Nat) : (2 * n + 1 - 1) / 2 = n := by omega

theorem parent_of_right (n : Nat) : (2 * n + 2 - 1) / 2 = n := by omega

theorem child_cases {j : Nat} (h : 0 < j) :
    j = 2 * ((j - 1) / 2) + 1 ∨ j = 2 * ((j - 1) / 2) + 2 := by omega

/-! ### The descendant relation on heap positions -/

/-- `Desc i j` holds when position `j` lies in the subtree rooted at
position `i` of the implicit binary tree on `Nat` (children of `p` are
`2p+1` and `2p+2`). -/
inductive Desc : Nat → Nat → Prop where
  | refl (i : Nat) : Desc i i
  | left {i j : Nat} : Desc i j → Desc i (2 * j + 1)
  | right {i j : Nat} : Desc i j → Desc i (2 * j + 2)

theorem Desc.le {i j : Nat} (h : Desc i j) : i ≤ j := by
  induction h with
  | refl => exact Nat.le_refl _
  | left _ ih => omega
  | right _ ih => omega

theorem Desc.trans {i j k : Nat} (h1 : Desc i j) (h2 : Desc j k) : Desc i k := by
  induction h2 with
  | refl => exact h1
  | left _ ih => exact Desc.left ih
  | right _ ih => exact Desc.right ih

theorem Desc.parent {i j : Nat} (h : Desc i j) (hne : j ≠ i) :
    0 < j ∧ i ≤ (j - 1) / 2 ∧ Desc i ((j - 1) / 2) := by
  induction h with
  | refl => exact absurd rfl hne
  | @left j hd _ =>
    refine ⟨by omega, ?_, ?_⟩
    · rw [parent_of_left]; exact hd.le
    · rw [parent_of_left]; exact hd
  | @right j hd _ =>
    refine ⟨by omega, ?_, ?_⟩
    · rw [parent_of_right]; exact hd.le
    · rw [parent_of_right]; exact hd

theorem Desc.of_parent {p j : Nat} (h : Desc p ((j - 1) / 2)) (hj : 0 < j) : Desc p j := by
  rcases child_cases hj with hc | hc
  · rw [hc]; exact Desc.left h
  · rw [hc]; exact Desc.right h

theorem not_desc_of_lt {p j : Nat} (h : j < p) : ¬ Desc p j :=
  fun hd => absurd hd.le (by omega)

theorem Desc.eq_of_lt_left {p j : Nat} (h : Desc p j) (hj : j < 2 * p + 1) : j = p := by
  by_contra hne
  have := (h.parent hne).2.1
  omega

theorem Desc.child_split {p j : Nat} (h : Desc p j) (hne : j ≠ p) :
    Desc (2 * p + 1) j ∨ Desc (2 * p + 2) j := by
  induction h with
  | refl => exact absurd rfl hne
  | @left k hd ih =>
    by_cases hk : k = p
    · subst hk; exact Or.inl (Desc.refl _)
    · rcases ih hk with h' | h'
      · exact Or.inl (Desc.left h')
      · exact Or.inr (Desc.left h')
  | @right k hd ih =>
    by_cases hk : k = p
    · subst hk; exact Or.inr (Desc.refl _)
    · rcases ih hk with h' | h'
      · exact Or.inl (Desc.right h')
      · exact Or.inr (Desc.right h')

/-! ### Properties of the larger-child selection -/

theorem pickChild_cases (sc : Nat → Nat) (size : Nat) (tree : Nat → Nat) (node : Nat) :
    pickChild sc size tree node = 2 * node + 1 ∨ pickChild sc size tree node = 2 * node + 2 := by
  by_cases hc : 2 * node + 2 < size ∧ sc (tree (2 * node + 1)) < sc (tree (2 * node + 2))
  · rw [pickChild, if_pos hc]; exact Or.inr rfl
  · rw [pickChild, if_neg hc]; exact Or.inl rfl

theorem pickChild_lt_size {sc : Nat → Nat} {size : Nat} {tree : Nat → Nat} {node : Nat}
    (h : node < size / 2) : pickChild sc size tree node < size := by
  by_cases hc : 2 * node + 2 < size ∧ sc (tree (2 * node + 1)) < sc (tree (2 * node + 2))
  · rw [pickChild, if_pos hc]; exact hc.1
  · rw [pickChild, if_neg hc]; omega

theorem pickChild_gt_node (sc : Nat → Nat) (size : Nat) (tree : Nat → Nat) (node : Nat) :
    node < pickChild sc size tree node := by
  rcases pickChild_cases sc size tree node with h | h <;> omega

theorem pickChild_parent (sc : Nat → Nat) (size : Nat) (tree : Nat → Nat) (node : Nat) :
    (pickChild sc size tree node - 1) / 2 = node := by
  rcases pickChild_cases sc size tree node with h | h <;> rw [h] <;> omega

theorem pickChild_desc {q node : Nat} (sc : Nat → Nat) (size : Nat) (tree : Nat → Nat)
    (h : Desc q node) : Desc q (pickChild sc size tree node) := by
  rcases pickChild_cases sc size tree node with hc | hc <;> rw [hc]
  · exact Desc.left h
  · exact Desc.right h

theorem le_pickChild_left (sc : Nat → Nat) (size : Nat) (tree : Nat → Nat) (node : Nat) :
    sc (tree (2 * node + 1)) ≤ sc (tree (pickChild sc size tree node)) := by
  by_cases hc : 2 * node + 2 < size ∧ sc (tree (2 * node + 1)) < sc (tree (2 * node + 2))
  · rw [pickChild, if_pos hc]; exact Nat.le_of_lt hc.2
  · rw [pickChild, if_neg hc]

theorem le_pickChild_right {sc : Nat → Nat} {size : Nat} {tree : Nat → Nat} {node : Nat}
    (h2 : 2 * node + 2 < size) :
    sc (tree (2 * node + 2)) ≤ sc (tree (pickChild sc size tree node)) := by
  by_cases hc : 2 * node + 2 < size ∧ sc (tree (2 * node + 1)) < sc (tree (2 * node + 2))
  · rw [pickChild, if_pos hc]
  · rw [pickChild, if_neg hc]
    rcases (not_and.mp hc) h2 with h
    omega

/-! ### sift_down: stopping, footprint, and result bounds -/

theorem sd_stop {size node : Nat} (sc : Nat → Nat) (gas : Nat) (tree : Nat → Nat) (x : Nat)
    (h : ¬ node < size / 2) :
    secp256k1_sift_down sc size gas tree node x = updf tree node x := by
  cases gas <;> simp [secp256k1_sift_down, h]

theorem sd_untouched {sc : Nat → Nat} {size : Nat} (gas : Nat) (tree : Nat → Nat)
    (node x : Nat) {p : Nat} (hp : ¬ Desc node p) :
    secp256k1_sift_down sc size gas tree node x p = tree p := by
  induction gas generalizing tree node with
  | zero =>
    exact updf_ne tree x (fun h => hp (h ▸ Desc.refl p))
  | succ gas ih =>
    have hpn : p ≠ node := fun h => hp (h ▸ Desc.refl p)
    by_cases hn : node < size / 2
    · simp only [secp256k1_sift_down, if_pos hn]
      by_cases hstop : sc (tree (pickChild sc size tree node)) < sc x
      · rw [if_pos hstop]; exact updf_ne tree x hpn
      · rw [if_neg hstop]
        have hpc : ¬ Desc (pickChild sc size tree node) p :=
          fun hc => hp ((pickChild_desc sc size tree (Desc.refl node)).trans hc)
        rw [ih _ _ hpc]
        exact updf_ne tree _ hpn
    · rw [sd_stop sc _ tree x hn]; exact updf_ne tree x hpn

theorem sd_le {sc : Nat → Nat} {size : Nat} (gas : Nat) (tree : Nat → Nat)
    (node x : Nat) {B : Nat} (hB : sc x ≤ B)
    (hdesc : ∀ d, Desc node d → d < size → sc (tree d) ≤ B) :
    sc (secp256k1_sift_down sc size gas tree node x node) ≤ B := by
  cases gas with
  | zero => rw [secp256k1_sift_down, updf_eq]; exact hB
  | succ gas =>
    by_cases hn : node < size / 2
    · simp only [secp256k1_sift_down, if_pos hn]
      by_cases hstop : sc (tree (pickChild sc size tree node)) < sc x
      · rw [if_pos hstop, updf_eq]; exact hB
      · rw [if_neg hstop]
        have hnd : ¬ Desc (pickChild sc size tree node) node :=
          not_desc_of_lt (pickChild_gt_node sc size tree node)
        rw [sd_untouched gas _ _ x hnd, updf_eq]
        exact hdesc _ (pickChild_desc sc size tree (Desc.refl node)) (pickChild_lt_size hn)
    · rw [sd_stop sc _ tree x hn, updf_eq]; exact hB

theorem desc_bound {sc : Nat → Nat} {size node c : Nat} {tree : Nat → Nat}
    (HH : ∀ j, j < size → 0 < j → node < (j - 1) / 2 →
      sc (tree j) ≤ sc (tree ((j - 1) / 2)))
    (hc : node < c) : ∀ d, Desc c d → d < size → sc (tree d) ≤ sc (tree c) := by
  intro d hd
  induction hd with
  | refl => intro _; exact Nat.le_refl _
  | @left k hk ih =>
    intro hds
    have hck : c ≤ k := hk.le
    have h1 : sc (tree (2 * k + 1)) ≤ sc (tree k) := by
      have := HH (2 * k + 1) hds (by omega) (by rw [parent_of_left]; omega)
      · rwa [parent_of_left] at this
    exact Nat.le_trans h1 (ih (by omega))
  | @right k hk ih =>
    intro hds
    have hck : c ≤ k := hk.le
    have h1 : sc (tree (2 * k + 2)) ≤ sc (tree k) := by
      have := HH (2 * k + 2) hds (by omega) (by rw [parent_of_right]; omega)
      · rwa [parent_of_right] at this
    exact Nat.le_trans h1 (ih (by omega))

/-- The sift_down restoration lemma: called at `node` on a tree whose
pairs strictly below level `node` are all heap-ordered (exactly the
state bottom-up heap construction reaches `node` with), any candidate
yields heap order on all pairs with parent at or below level `node`. -/
theorem sd_isHeap {sc : Nat → Nat} {size : Nat} (gas : Nat) (tree : Nat → Nat)
    (node x : Nat) (hgas : size ≤ gas + node)
    (HH : ∀ j, j < size → 0 < j → node < (j - 1) / 2 →
      sc (tree j) ≤ sc (tree ((j - 1) / 2))) :
    ∀ j, j < size → 0 < j → node ≤ (j - 1) / 2 →
      sc (secp256k1_sift_down sc size gas tree node x j) ≤
      sc (secp256k1_sift_down sc size gas tree node x ((j - 1) / 2)) := by
  induction gas generalizing tree node with
  | zero =>
    intro j hj hj0 hpar
    have hns : size ≤ node := by omega
    have h1 : j ≠ node := by omega
    have h2 : (j - 1) / 2 ≠ node := by omega
    rw [secp256k1_sift_down, updf_ne tree x h1, updf_ne tree x h2]
    exact HH j hj hj0 (by omega)
  | succ gas ih =>
    intro j hj hj0 hpar
    by_cases hn : node < size / 2
    · simp only [secp256k1_sift_down, if_pos hn]
      by_cases hstop : sc (tree (pickChild sc size tree node)) < sc x
      · rw [if_pos hstop]
        rcases Nat.lt_or_ge node ((j - 1) / 2) with hgt | hge
        · have h1 : j ≠ node := by omega
          have h2 : (j - 1) / 2 ≠ node := by omega
          rw [updf_ne tree x h1, updf_ne tree x h2]
          exact HH j hj hj0 hgt
        · have hpe : (j - 1) / 2 = node := by omega
          have h1 : j ≠ node := by omega
          rw [hpe, updf_ne tree x h1, updf_eq]
          have hch : sc (tree j) ≤ sc (tree (pickChild sc size tree node)) := by
            rcases child_cases hj0 with hc | hc
            · rw [hc, hpe]; exact le_pickChild_left sc size tree node
            · rw [hc, hpe]; exact le_pickChild_right (by rw [hpe] at hc; omega)
          exact Nat.le_of_lt (Nat.lt_of_le_of_lt hch hstop)
      · rw [if_neg hstop]
        set c := pickChild sc size tree node with hcdef
        have hcn : node < c := pickChild_gt_node sc size tree node
        have hcs : c < size := pickChild_lt_size hn
        have hcpar : (c - 1) / 2 = node := pickChild_parent sc size tree node
        set t1 := updf tree node (tree c) with ht1
        have ht1c : ∀ q, q ≠ node → t1 q = tree q := fun q hq => updf_ne tree _ hq
        have HH' : ∀ j, j < size → 0 < j → c < (j - 1) / 2 →
            sc (t1 j) ≤ sc (t1 ((j - 1) / 2)) := by
          intro j hjs hj0 hcp
          have hj1 : j ≠ node := by
            have : 2 * ((j - 1) / 2) + 1 ≤ j := by omega
            omega
          have hj2 : (j - 1) / 2 ≠ node := by omega
          rw [ht1c j hj1, ht1c _ hj2]
          exact HH j hjs hj0 (by omega)
        have hmain := ih t1 c (by omega) HH'
        -- pairs with parent at or above c are handled by the recursive call;
        -- the rest are the pairs at node's own level and the sibling subtree.
        rcases Nat.lt_or_ge ((j - 1) / 2) c with hplt | hpge
        · rcases Nat.lt_or_ge node ((j - 1) / 2) with hgt | hge
          · -- node < parent < c: a region untouched by the descent
            have hjnd : ¬ Desc c j := by
              intro hd
              by_cases hjc : j = c
              · rw [hjc] at hgt; omega
              · have := (hd.parent hjc).2.1; omega
            have hpnd : ¬ Desc c ((j - 1) / 2) := not_desc_of_lt hplt
            have hjlow : 2 * ((j - 1) / 2) + 1 ≤ j := by omega
            rw [sd_untouched gas t1 c x hjnd, sd_untouched gas t1 c x hpnd,
              ht1c j (by omega), ht1c _ (by omega)]
            exact HH j hj hj0 hgt
          · -- parent = node: the two children of node
            have hpe : (j - 1) / 2 = node := by omega
            have hndn : ¬ Desc c node := not_desc_of_lt hcn
            have hvnode : secp256k1_sift_down sc size gas t1 c x node = tree c := by
              rw [sd_untouched gas t1 c x hndn, ht1, updf_eq]
            by_cases hjc : j = c
            · -- the descended child: its new value is bounded by the moved-up one
              rw [hpe, hvnode, hjc]
              exact sd_le gas t1 c x (by omega)
                (fun d hd hds => by
                  rw [ht1c d (by have := hd.le; omega)]
                  exact desc_bound HH hcn d hd hds)
            · -- the sibling child: untouched, bounded by the larger child
              have hsib : ¬ Desc c j := by
                intro hd
                have := (hd.parent hjc).2.1
                omega
              rw [hpe, hvnode, sd_untouched gas t1 c x hsib, ht1c j (by omega)]
              rcases child_cases hj0 with hc | hc
              · rw [hc, hpe]; exact le_pickChild_left sc size tree node
              · rw [hc, hpe]; exact le_pickChild_right (by rw [hpe] at hc; omega)
        · exact hmain j hj hj0 hpge
    · rw [sd_stop sc _ tree x hn]
      have hch1 : size ≤ 2 * node + 1 := by omega
      rcases Nat.lt_or_ge node ((j - 1) / 2) with hgt | hge
      · have h1 : j ≠ node := by omega
        have h2 : (j - 1) / 2 ≠ node := by omega
        rw [updf_ne tree x h1, updf_ne tree x h2]
        exact HH j hj hj0 hgt
      · have hpe : (j - 1) / 2 = node := by omega
        have : 2 * node + 1 ≤ j := by omega
        omega

/-! ### Bottom-up heap construction establishes the invariant -/

theorem heapify_loop_isHeap {sc : Nat → Nat} {size : Nat} :
    ∀ (r : Nat) (tree : Nat → Nat),
    (∀ j, j < size → 0 < j → r ≤ (j - 1) / 2 → sc (tree j) ≤ sc (tree ((j - 1) / 2))) →
    IsHeap sc (secp256k1_heapify_loop sc size r tree) size := by
  intro r
  induction r with
  | zero =>
    intro tree H j hj hj0
    exact H j hj hj0 (Nat.zero_le _)
  | succ r ih =>
    intro tree H
    exact ih _ (fun j hj hj0 hpar =>
      sd_isHeap size tree r (tree r) (by omega)
        (fun j hj hj0 hgt => H j hj hj0 (by omega)) j hj hj0 hpar)

theorem heapify_isHeap (sc : Nat → Nat) (size : Nat) (tree : Nat → Nat) :
    IsHeap sc (secp256k1_heapify sc size tree) size := by
  apply heapify_loop_isHeap (size / 2) tree
  intro j hj hj0 hpar
  omega

theorem init_isHeap {G : Type} [AddCommMonoid G] [DecidableEq G]
    (sc : Nat → Nat) (pt : Nat → G) (n : Nat) :
    IsHeap sc (secp256k1_heap_init sc pt n).tree (secp256k1_heap_init sc pt n).size :=
  heapify_isHeap sc _ _

/-! ### Root dominance and remove -/

theorem isHeap_le_root {sc : Nat → Nat} {tree : Nat → Nat} {size : Nat}
    (h : IsHeap sc tree size) : ∀ j, j < size → sc (tree j) ≤ sc (tree 0) := by
  intro j
  induction j using Nat.strong_induction_on with
  | _ j ih =>
    intro hj
    rcases Nat.eq_zero_or_pos j with hj0 | hj0
    · rw [hj0]
    · exact Nat.le_trans (h j hj hj0) (ih ((j - 1) / 2) (by omega) (by omega))

theorem heap_remove_fst (sc : Nat → Nat) (heap : secp256k1_scalar_heap) :
    (secp256k1_heap_remove sc heap).1 = heap.tree 0 := by
  rw [secp256k1_heap_remove]
  by_cases h : 0 < heap.size - 1 <;> simp [h]

theorem heap_remove_size (sc : Nat → Nat) (heap : secp256k1_scalar_heap) :
    (secp256k1_heap_remove sc heap).2.size = heap.size - 1 := by
  rw [secp256k1_heap_remove]
  by_cases h : 0 < heap.size - 1 <;> simp [h]

theorem heap_remove_isHeap (sc : Nat → Nat) (heap : secp256k1_scalar_heap)
    (h : IsHeap sc heap.tree heap.size) :
    IsHeap sc (secp256k1_heap_remove sc heap).2.tree (secp256k1_heap_remove sc heap).2.size := by
  rw [secp256k1_heap_remove]
  by_cases hs : 0 < heap.size - 1
  · simp only [if_pos hs]
    intro j hj hj0
    exact sd_isHeap _ heap.tree 0 (heap.tree (heap.size - 1)) (by omega)
      (fun j hjs hj0 _ => h j (by omega) hj0) j hj hj0 (Nat.zero_le _)
  · simp only [if_neg hs]
    intro j hj hj0
    omega

/-! ### The multiset of stored indices -/

theorem treeMS_succ (tree : Nat → Nat) (size : Nat) :
    treeMS tree (size + 1) = treeMS tree size + {tree size} := by
  rw [treeMS, treeMS, List.range_succ, List.map_append]
  rw [← Multiset.coe_singleton, ← Multiset.coe_add]
  rfl

theorem mem_treeMS {i : Nat} {tree : Nat → Nat} {size : Nat} :
    i ∈ treeMS tree size ↔ ∃ j, j < size ∧ tree j = i := by
  simp only [treeMS, Multiset.mem_coe, List.mem_map, List.mem_range]

theorem tree0_mem_treeMS {tree : Nat → Nat} {size : Nat} (h : 0 < size) :
    tree 0 ∈ treeMS tree size :=
  mem_treeMS.mpr ⟨0, h, rfl⟩


theorem ms_cancel_aux {M1 M2 M3 : Multiset Nat} {u v w : Nat}
    (h1 : M1 + {v} = M2 + {w}) (h2 : M2 + {u} = M3 + {v}) :
    M1 + {u} = M3 + {w} := by
  have key : M1 + {u} + {v} = M3 + {w} + {v} := by
    calc M1 + {u} + {v} = M1 + {v} + {u} := by rw [add_right_comm]
      _ = M2 + {w} + {u} := by rw [h1]
      _ = M2 + {u} + {w} := by rw [add_right_comm]
      _ = M3 + {v} + {w} := by rw [h2]
      _ = M3 + {w} + {v} := by rw [add_right_comm]
  exact add_right_cancel key

theorem treeMS_updf {node size : Nat} (tree : Nat → Nat) (v : Nat) (h : node < size) :
    treeMS (updf tree node v) size + {tree node} = treeMS tree size + {v} := by
  induction size with
  | zero => omega
  | succ s ih =>
    rw [treeMS_succ, treeMS_succ]
    by_cases hn : node = s
    · subst hn
      have hms : treeMS (updf tree node v) node = treeMS tree node := by
        rw [treeMS, treeMS]
        congr 1
        apply List.map_congr_left
        intro j hj
        exact updf_ne tree v (by simp at hj; omega)
      rw [hms, updf_eq]
      rw [add_right_comm]
    · have hns : node < s := by omega
      have hlast : updf tree node v s = tree s := updf_ne tree v (fun hc => hn hc.symm)
      rw [hlast, add_right_comm, ih hns, add_right_comm]

theorem sd_treeMS {sc : Nat → Nat} {size : Nat} (gas : Nat) (tree : Nat → Nat)
    (node x : Nat) (h : node < size) :
    treeMS (secp256k1_sift_down sc size gas tree node x) size + {tree node} =
      treeMS tree size + {x} := by
  induction gas generalizing tree node with
  | zero => rw [secp256k1_sift_down]; exact treeMS_updf tree x h
  | succ gas ih =>
    by_cases hn : node < size / 2
    · simp only [secp256k1_sift_down, if_pos hn]
      by_cases hstop : sc (tree (pickChild sc size tree node)) < sc x
      · rw [if_pos hstop]; exact treeMS_updf tree x h
      · rw [if_neg hstop]
        set c := pickChild sc size tree node with hcdef
        have hcs : c < size := pickChild_lt_size hn
        have hcn : node < c := pickChild_gt_node sc size tree node
        have h1 := ih (updf tree node (tree c)) c hcs
        rw [updf_ne tree (tree c) (by omega : c ≠ node)] at h1
        exact ms_cancel_aux h1 (treeMS_updf tree (tree c) h)
    · rw [sd_stop sc _ tree x hn]; exact treeMS_updf tree x h

theorem su_treeMS {sc : Nat → Nat} {size : Nat} (gas : Nat) (tree : Nat → Nat)
    (node x : Nat) (h : node < size) :
    treeMS (secp256k1_sift_up sc gas tree node x) size + {tree node} =
      treeMS tree size + {x} := by
  induction gas generalizing tree node with
  | zero => rw [secp256k1_sift_up]; exact treeMS_updf tree x h
  | succ gas ih =>
    by_cases hn : 0 < node
    · simp only [secp256k1_sift_up, if_pos hn]
      by_cases hstop : sc x ≤ sc (tree ((node - 1) / 2))
      · rw [if_pos hstop]; exact treeMS_updf tree x h
      · rw [if_neg hstop]
        set p := (node - 1) / 2 with hpdef
        have hps : p < size := by omega
        have hpn : p ≠ node := by omega
        have h1 := ih (updf tree node (tree p)) p hps
        rw [updf_ne tree (tree p) hpn] at h1
        exact ms_cancel_aux h1 (treeMS_updf tree (tree p) h)
    · simp only [secp256k1_sift_up, if_neg hn]; exact treeMS_updf tree x h

theorem sf_treeMS {sc : Nat → Nat} {size : Nat} (gas : Nat) (tree : Nat → Nat)
    (node x : Nat) (h : node < size) :
    treeMS (secp256k1_sift_floyd sc size gas tree node x) size + {tree node} =
      treeMS tree size + {x} := by
  induction gas generalizing tree node with
  | zero => rw [secp256k1_sift_floyd]; exact su_treeMS node tree node x h
  | succ gas ih =>
    by_cases hn : node < size / 2
    · simp only [secp256k1_sift_floyd, if_pos hn]
      set c := pickChild sc size tree node with hcdef
      have hcs : c < size := pickChild_lt_size hn
      have hcn : node < c := pickChild_gt_node sc size tree node
      have h1 := ih (updf tree node (tree c)) c hcs
      rw [updf_ne tree (tree c) (by omega : c ≠ node)] at h1
      exact ms_cancel_aux h1 (treeMS_updf tree (tree c) h)
    · simp only [secp256k1_sift_floyd, if_neg hn]; exact su_treeMS node tree node x h

theorem heapify_loop_treeMS {sc : Nat → Nat} {size : Nat} :
    ∀ (r : Nat) (tree : Nat → Nat), r ≤ size →
    treeMS (secp256k1_heapify_loop sc size r tree) size = treeMS tree size := by
  intro r
  induction r with
  | zero => intro tree _; rfl
  | succ r ih =>
    intro tree hr
    rw [secp256k1_heapify_loop, ih _ (by omega)]
    exact add_right_cancel (sd_treeMS size tree r (tree r) (by omega))

theorem heapify_treeMS (sc : Nat → Nat) (size : Nat) (tree : Nat → Nat) :
    treeMS (secp256k1_heapify sc size tree) size = treeMS tree size :=
  heapify_loop_treeMS (size / 2) tree (by omega)

theorem getD_range_map (l : List Nat) :
    (List.range l.length).map (fun j => l.getD j 0) = l := by
  induction l with
  | nil => rfl
  | cons a l ih =>
    rw [List.length_cons, List.range_succ_eq_map, List.map_cons, List.map_map]
    have : ((fun j => (a :: l).getD j 0) ∘ Nat.succ) = fun j => l.getD j 0 := by
      funext j; rfl
    rw [this, ih]
    rfl

theorem heap_remove_treeMS (sc : Nat → Nat) (heap : secp256k1_scalar_heap)
    (h : 0 < heap.size) :
    treeMS (secp256k1_heap_remove sc heap).2.tree (secp256k1_heap_remove sc heap).2.size
      + {heap.tree 0} = treeMS heap.tree heap.size := by
  rw [secp256k1_heap_remove]
  by_cases hs : 0 < heap.size - 1
  · simp only [if_pos hs]
    have hsz : heap.size = (heap.size - 1) + 1 := by omega
    have hrhs : treeMS heap.tree heap.size =
        treeMS heap.tree (heap.size - 1) + {heap.tree (heap.size - 1)} := by
      conv_lhs => rw [hsz]
      rw [treeMS_succ]
    rw [hrhs]
    exact sd_treeMS (heap.size - 1) heap.tree 0 (heap.tree (heap.size - 1)) hs
  · simp only [if_neg hs]
    have hsz : heap.size = 1 := by omega
    rw [hsz]
    show treeMS heap.tree 0 + {heap.tree 0} = treeMS heap.tree 1
    rw [show (1 : Nat) = 0 + 1 from rfl, treeMS_succ]

/-! ### The floyd descent chain and its sift_up restoration -/

/-- `ParentChain node as q`: `as` lists the successive parents of `node`,
ending at `q`. -/
def ParentChain : Nat → List Nat → Nat → Prop
  | node, [], q => node = q
  | node, b :: as, q => 1 ≤ node ∧ b = (node - 1) / 2 ∧ ParentChain b as q

/-- `Shifted t t' node as`: along the parent chain `as` of `node`, each
position holds its chain-child's value from `t` (the state floyd's
descent leaves behind). -/
def Shifted (t t' : Nat → Nat) : Nat → List Nat → Prop
  | _, [] => True
  | node, b :: as => t' b = t node ∧ Shifted t t' b as

theorem parentChain_mem_lt {q : Nat} :
    ∀ (as : List Nat) (node : Nat), ParentChain node as q → ∀ a ∈ as, a < node := by
  intro as
  induction as with
  | nil => intro node _ a ha; simp at ha
  | cons b as ih =>
    intro node hch a ha
    rcases hch with ⟨h1, h2, h3⟩
    rcases List.mem_cons.mp ha with hab | hmem
    · omega
    · have := ih b h3 a hmem
      omega

theorem parentChain_desc {q : Nat} :
    ∀ (as : List Nat) (node : Nat), ParentChain node as q → Desc q node := by
  intro as
  induction as with
  | nil => intro node h; rw [ParentChain] at h; exact h ▸ Desc.refl q
  | cons b as ih =>
    intro node hch
    rcases hch with ⟨h1, h2, h3⟩
    exact (h2 ▸ ih b h3).of_parent h1

theorem parentChain_mem_desc {q : Nat} :
    ∀ (as : List Nat) (node : Nat), ParentChain node as q → ∀ a ∈ as, Desc q a := by
  intro as
  induction as with
  | nil => intro node _ a ha; simp at ha
  | cons b as ih =>
    intro node hch a ha
    rcases hch with ⟨h1, h2, h3⟩
    rcases List.mem_cons.mp ha with hab | hmem
    · exact hab ▸ parentChain_desc as b h3
    · exact ih b h3 a hmem

theorem shifted_congr {t : Nat → Nat} :
    ∀ (as : List Nat) (node : Nat) (t1 t2 : Nat → Nat),
    Shifted t t1 node as → (∀ p ∈ as, t2 p = t1 p) → Shifted t t2 node as := by
  intro as
  induction as with
  | nil => intro node t1 t2 _ _; trivial
  | cons b as ih =>
    intro node t1 t2 hsh hcg
    rcases hsh with ⟨h1, h2⟩
    refine ⟨?_, ih b t1 t2 h2 (fun p hp => hcg p (List.mem_cons_of_mem b hp))⟩
    rw [hcg b (List.mem_cons_self b as), h1]

theorem su_restore {sc : Nat → Nat} {x q : Nat} {t : Nat → Nat}
    (hq : q = 0 ∨ sc x ≤ sc (t ((q - 1) / 2))) :
    ∀ (as : List Nat) (node gas : Nat) (t' : Nat → Nat),
    ParentChain node as q →
    Shifted t t' node as →
    (∀ p, p ≠ node → p ∉ as → t' p = t p) →
    (as ≠ [] → sc (t node) < sc x) →
    (∀ a ∈ as, a ≠ q → sc (t a) < sc x) →
    node ≤ gas →
    secp256k1_sift_up sc gas t' node x = updf t q x := by
  intro as
  induction as with
  | nil =>
    intro node gas t' hch _ hoff _ _ _
    rw [ParentChain] at hch
    subst hch
    have hupd : updf t' node x = updf t node x := by
      funext p
      by_cases hp : p = node
      · rw [hp, updf_eq, updf_eq]
      · rw [updf_ne t' x hp, updf_ne t x hp, hoff p hp (List.not_mem_nil p)]
    rcases Nat.eq_zero_or_pos node with h0 | h0
    · subst h0
      cases gas with
      | zero => rw [secp256k1_sift_up]; exact hupd
      | succ g => simp only [secp256k1_sift_up, Nat.lt_irrefl, if_neg (by omega : ¬ 0 < 0)]; exact hupd
    · rcases hq with h0' | hle
      · omega
      · cases gas with
        | zero => rw [secp256k1_sift_up]; exact hupd
        | succ g =>
          have hpar : t' ((node - 1) / 2) = t ((node - 1) / 2) :=
            hoff _ (by omega) (List.not_mem_nil _)
          simp only [secp256k1_sift_up, if_pos h0]
          rw [hpar, if_pos hle]
          exact hupd
  | cons b as ih =>
    intro node gas t' hch hsh hoff hsm hsma hgas
    rcases hch with ⟨h1, h2, h3⟩
    rcases hsh with ⟨hs1, hs2⟩
    cases gas with
    | zero => omega
    | succ g =>
      have hbm : ∀ a ∈ (b :: as), a < node := parentChain_mem_lt _ node ⟨h1, h2, h3⟩
      have hclimb : ¬ sc x ≤ sc (t' ((node - 1) / 2)) := by
        rw [← h2, hs1]
        exact not_le.mpr (hsm (by simp))
      simp only [secp256k1_sift_up, if_pos (by omega : 0 < node)]
      rw [if_neg hclimb]
      set t2 := updf t' node (t' ((node - 1) / 2)) with ht2
      have ht2off : ∀ p, p ≠ node → t2 p = t' p := fun p hp => updf_ne t' _ hp
      have happ := ih b g t2 h3
        (shifted_congr as b t' t2 hs2
          (fun p hp => ht2off p (by have := hbm p (List.mem_cons_of_mem b hp); omega)))
        (by
          intro p hpb hpas
          by_cases hpn : p = node
          · rw [hpn, ht2, updf_eq, ← h2, hs1]
          · rw [ht2off p hpn]
            exact hoff p hpn (by simp [hpb, hpas]))
        (by
          intro hne
          have hbq : b ≠ q := by
            rcases as with _ | ⟨b2, as'⟩
            · exact absurd rfl hne
            · have hq2 : q ≤ b2 := (parentChain_desc _ _ h3.2.2).le
              have : b2 < b := parentChain_mem_lt _ b h3 b2 (by simp)
              omega
          exact hsma b (by simp) hbq)
        (fun a ha haq => hsma a (List.mem_cons_of_mem b ha) haq)
        (by omega)
      rw [h2] at happ
      exact happ

theorem pickChild_congr {sc : Nat → Nat} {size : Nat} {t t' : Nat → Nat} {node : Nat}
    (h1 : t' (2 * node + 1) = t (2 * node + 1)) (h2 : t' (2 * node + 2) = t (2 * node + 2)) :
    pickChild sc size t' node = pickChild sc size t node := by
  rw [pickChild, pickChild, h1, h2]

theorem desc_bound_desc {sc : Nat → Nat} {size q : Nat} {t : Nat → Nat}
    (A : ∀ j, j < size → 0 < j → Desc q ((j - 1) / 2) → sc (t j) ≤ sc (t ((j - 1) / 2)))
    {c : Nat} (hqc : Desc q c) : ∀ d, Desc c d → d < size → sc (t d) ≤ sc (t c) := by
  intro d hd
  induction hd with
  | refl => intro _; exact Nat.le_refl _
  | @left k hk ih =>
    intro hds
    have h1 : sc (t (2 * k + 1)) ≤ sc (t k) := by
      have := A (2 * k + 1) hds (by omega) (by rw [parent_of_left]; exact hqc.trans hk)
      rwa [parent_of_left] at this
    exact Nat.le_trans h1 (ih (by have := hk.le; omega))
  | @right k hk ih =>
    intro hds
    have h1 : sc (t (2 * k + 2)) ≤ sc (t k) := by
      have := A (2 * k + 2) hds (by omega) (by rw [parent_of_right]; exact hqc.trans hk)
      rwa [parent_of_right] at this
    exact Nat.le_trans h1 (ih (by have := hk.le; omega))

/-- The floyd descent: starting anywhere strictly inside the subtree of
the stop position `q` with the chain of shifted values behind it, the
descent reaches a leaf and the final sift_up puts the candidate at `q`
and every shifted value back, leaving exactly `updf t q x`. -/
theorem sf_shifted {sc : Nat → Nat} {size x q : Nat} {t : Nat → Nat}
    (hsmall : ∀ d, Desc q d → d ≠ q → d < size → sc (t d) < sc x)
    (hq : q = 0 ∨ sc x ≤ sc (t ((q - 1) / 2))) :
    ∀ (gas node : Nat) (as : List Nat) (t' : Nat → Nat),
    ParentChain node as q → Shifted t t' node as →
    (∀ p, p ≠ node → p ∉ as → t' p = t p) →
    Desc q node → node < size → size ≤ gas + node →
    secp256k1_sift_floyd sc size gas t' node x = updf t q x := by
  intro gas
  induction gas with
  | zero => intro node as t' _ _ _ _ hns hgas; omega
  | succ gas ih =>
    intro node as t' hch hsh hoff hdq hns hgas
    have hmlt : ∀ a ∈ as, a < node := parentChain_mem_lt as node hch
    have hleft : t' (2 * node + 1) = t (2 * node + 1) := by
      apply hoff _ (by omega)
      intro hc; have := hmlt _ hc; omega
    have hright : t' (2 * node + 2) = t (2 * node + 2) := by
      apply hoff _ (by omega)
      intro hc; have := hmlt _ hc; omega
    by_cases hn : node < size / 2
    · simp only [secp256k1_sift_floyd, if_pos hn]
      rw [pickChild_congr hleft hright]
      set c := pickChild sc size t node with hcdef
      have hcs : c < size := pickChild_lt_size hn
      have hcn : node < c := pickChild_gt_node sc size t node
      have hcpar : (c - 1) / 2 = node := pickChild_parent sc size t node
      have htc : t' c = t c := by
        apply hoff _ (by omega)
        intro hc2; have := hmlt _ hc2; omega
      rw [htc]
      apply ih c (node :: as) (updf t' node (t c))
      · exact ⟨by omega, hcpar.symm, hch⟩
      · refine ⟨by rw [updf_eq], ?_⟩
        apply shifted_congr as node t' _ hsh
        intro p hp
        exact updf_ne t' _ (by have := hmlt _ hp; omega)
      · intro p hpc hpm
        have hpn : p ≠ node := fun h => hpm (h ▸ List.mem_cons_self node as)
        rw [updf_ne t' _ hpn]
        exact hoff p hpn (fun h => hpm (List.mem_cons_of_mem node h))
      · exact hdq.trans (hcdef ▸ pickChild_desc sc size t (Desc.refl node))
      · exact hcs
      · omega
    · simp only [secp256k1_sift_floyd, if_neg hn]
      apply su_restore hq as node node t' hch hsh hoff
      · intro hne
        have hnq : node ≠ q := by
          rcases as with _ | ⟨b, as'⟩
          · exact absurd rfl hne
          · have hq2 : q ≤ b := (parentChain_desc _ _ hch.2.2).le
            have hbn : b < node := hmlt b (by simp)
            have : b = (node - 1) / 2 := hch.2.1
            omega
        exact hsmall node hdq hnq hns
      · intro a ha haq
        exact hsmall a (parentChain_mem_desc as node hch a ha) haq
          (by have := hmlt a ha; omega)
      · exact Nat.le_refl node

theorem su_stop {sc : Nat → Nat} {t : Nat → Nat} {node x : Nat} (gas : Nat)
    (h : node = 0 ∨ sc x ≤ sc (t ((node - 1) / 2))) :
    secp256k1_sift_up sc gas t node x = updf t node x := by
  cases gas with
  | zero => rw [secp256k1_sift_up]
  | succ g =>
    rcases h with h0 | hle
    · simp only [secp256k1_sift_up, h0, if_neg (by omega : ¬ (0:Nat) < 0)]
    · by_cases h0 : 0 < node
      · simp only [secp256k1_sift_up, if_pos h0, if_pos hle]
      · simp only [secp256k1_sift_up, if_neg h0]

/-- On any tree heap-ordered inside the subtree of `q` (with the
candidate capped by `q`'s parent), Floyd's sift and the plain sift_down
from `q` produce identical final contents. -/
theorem fd_eq_gen {sc : Nat → Nat} {size x : Nat} :
    ∀ (gas : Nat) (t : Nat → Nat) (q : Nat),
    (∀ j, j < size → 0 < j → Desc q ((j - 1) / 2) → sc (t j) ≤ sc (t ((j - 1) / 2))) →
    (q = 0 ∨ sc x ≤ sc (t ((q - 1) / 2))) →
    q < size → size ≤ gas + q →
    secp256k1_sift_floyd sc size gas t q x = secp256k1_sift_down sc size gas t q x := by
  intro gas
  induction gas with
  | zero => intro t q _ _ hns hgas; omega
  | succ gas ih =>
    intro t q A hq hns hgas
    by_cases hn : q < size / 2
    · set c := pickChild sc size t q with hcdef
      have hcs : c < size := pickChild_lt_size hn
      have hcn : q < c := pickChild_gt_node sc size t q
      have hcpar : (c - 1) / 2 = q := pickChild_parent sc size t q
      by_cases hstop : sc (t c) < sc x
      · -- sift_down stops at q; floyd descends and climbs all the way back
        simp only [secp256k1_sift_down, if_pos hn, if_pos hstop]
        apply sf_shifted _ hq (gas + 1) q [] t (rfl) trivial
          (fun p _ _ => rfl) (Desc.refl q) hns (by omega)
        intro d hdq hdne hds
        rcases hdq.child_split hdne with hd | hd
        · have h1 : sc (t d) ≤ sc (t (2 * q + 1)) :=
            desc_bound_desc A (Desc.left (Desc.refl q)) d hd hds
          exact Nat.lt_of_le_of_lt (Nat.le_trans h1 (le_pickChild_left sc size t q)) hstop
        · have h2s : 2 * q + 2 < size := by have := hd.le; omega
          have h1 : sc (t d) ≤ sc (t (2 * q + 2)) :=
            desc_bound_desc A (Desc.right (Desc.refl q)) d hd hds
          exact Nat.lt_of_le_of_lt (Nat.le_trans h1 (le_pickChild_right h2s)) hstop
      · -- both descend to the chosen child with identical trees
        simp only [secp256k1_sift_floyd, secp256k1_sift_down, if_pos hn, if_neg hstop]
        rw [← hcdef]
        apply ih (updf t q (t c)) c
        · intro j hj hj0 hdp
          have hpar_ge : c ≤ (j - 1) / 2 := hdp.le
          have hj_ge : 2 * c + 1 ≤ j := by omega
          rw [updf_ne t _ (by omega : j ≠ q), updf_ne t _ (by omega : (j - 1) / 2 ≠ q)]
          exact A j hj hj0 ((hcdef ▸ pickChild_desc sc size t (Desc.refl q)).trans hdp)
        · right
          rw [hcpar, updf_eq]
          omega
        · exact hcs
        · omega
    · simp only [secp256k1_sift_floyd, secp256k1_sift_down, if_neg hn]
      exact su_stop q hq

theorem floyd_eq_sd_root {sc : Nat → Nat} {size : Nat} (tree : Nat → Nat) (x : Nat)
    (h : IsHeap sc tree size) :
    secp256k1_sift_floyd sc size size tree 0 x =
      secp256k1_sift_down sc size size tree 0 x := by
  rcases Nat.eq_zero_or_pos size with h0 | h0
  · rw [h0, secp256k1_sift_floyd, secp256k1_sift_up, secp256k1_sift_down]
  · exact fd_eq_gen size tree 0 (fun j hj hj0 _ => h j hj hj0) (Or.inl rfl) h0 (by omega)

/-! ### sift_up on a valid heap with an increased key -/

theorem su_isHeap_gen {sc : Nat → Nat} {size x : Nat} :
    ∀ (gas cur : Nat) (t : Nat → Nat),
    cur < size →
    (∀ j, j < size → 0 < j → j ≠ cur → (j - 1) / 2 ≠ cur →
      sc (t j) ≤ sc (t ((j - 1) / 2))) →
    (∀ c, (c = 2 * cur + 1 ∨ c = 2 * cur + 2) → c < size → sc (t c) ≤ sc x) →
    (cur ≠ 0 → ∀ c, (c = 2 * cur + 1 ∨ c = 2 * cur + 2) → c < size →
      sc (t c) ≤ sc (t ((cur - 1) / 2))) →
    cur ≤ gas →
    IsHeap sc (secp256k1_sift_up sc gas t cur x) size := by
  intro gas
  induction gas with
  | zero =>
    intro cur t hcs h1 h2 _ hgas
    have hc0 : cur = 0 := by omega
    subst hc0
    rw [secp256k1_sift_up]
    intro j hj hj0
    by_cases hpar : (j - 1) / 2 = 0
    · rw [updf_ne t x (by omega : j ≠ 0), hpar, updf_eq]
      exact h2 j (by omega) hj
    · rw [updf_ne t x (by omega : j ≠ 0), updf_ne t x hpar]
      exact h1 j hj hj0 (by omega) hpar
  | succ gas ih =>
    intro cur t hcs h1 h2 h2b hgas
    rcases Nat.eq_zero_or_pos cur with hc0 | hc0
    · subst hc0
      simp only [secp256k1_sift_up, if_neg (by omega : ¬ (0:Nat) < 0)]
      intro j hj hj0
      by_cases hpar : (j - 1) / 2 = 0
      · rw [updf_ne t x (by omega : j ≠ 0), hpar, updf_eq]
        exact h2 j (by omega) hj
      · rw [updf_ne t x (by omega : j ≠ 0), updf_ne t x hpar]
        exact h1 j hj hj0 (by omega) hpar
    · simp only [secp256k1_sift_up, if_pos hc0]
      set p := (cur - 1) / 2 with hpdef
      have hpc : p < cur := by omega
      by_cases hstop : sc x ≤ sc (t p)
      · rw [if_pos hstop]
        intro j hj hj0
        by_cases hjc : j = cur
        · rw [hjc, updf_eq, updf_ne t x (by omega : (cur - 1) / 2 ≠ cur)]
          exact hstop
        · by_cases hpar : (j - 1) / 2 = cur
          · rw [updf_ne t x hjc, hpar, updf_eq]
            exact h2 j (by omega) hj
          · rw [updf_ne t x hjc, updf_ne t x hpar]
            exact h1 j hj hj0 hjc hpar
      · rw [if_neg hstop]
        set t2 := updf t cur (t p) with ht2
        have ht2ne : ∀ j, j ≠ cur → t2 j = t j := fun j hj => updf_ne t _ hj
        have hcur_child : cur = 2 * p + 1 ∨ cur = 2 * p + 2 := by
          rcases child_cases hc0 with hc | hc
          · exact Or.inl hc
          · exact Or.inr hc
        apply ih p t2 (by omega)
        · -- pairs not involving p remain valid
          intro j hj hj0 hjp hparp
          by_cases hjc : j = cur
          · exact absurd (by omega : (j - 1) / 2 = p) hparp
          · by_cases hpar : (j - 1) / 2 = cur
            · rw [ht2ne j hjc, hpar, ht2, updf_eq]
              exact h2b (by omega) j (by omega) hj
            · rw [ht2ne j hjc, ht2ne _ hpar]
              exact h1 j hj hj0 hjc hpar
        · -- the children of p are below the candidate
          intro c hc hcsz
          by_cases hcc : c = cur
          · rw [hcc, ht2, updf_eq]; omega
          · rw [ht2ne c hcc]
            have hcp : (c - 1) / 2 = p := by rcases hc with hc | hc <;> omega
            have hc1 : 0 < c := by rcases hc with hc | hc <;> omega
            have h3 : sc (t c) ≤ sc (t ((c - 1) / 2)) :=
              h1 c hcsz hc1 hcc (by omega)
            rw [hcp] at h3
            omega
        · -- the children of p stay below p's own parent
          intro hp0 c hc hcsz
          have hppar : sc (t p) ≤ sc (t ((p - 1) / 2)) :=
            h1 p (by omega) (by omega) (by omega) (by omega)
          have hpp_ne : (p - 1) / 2 ≠ cur := by omega
          rw [ht2ne _ hpp_ne]
          by_cases hcc : c = cur
          · rw [hcc, ht2, updf_eq]; exact hppar
          · rw [ht2ne c hcc]
            have hcp : (c - 1) / 2 = p := by rcases hc with hc | hc <;> omega
            have hc1 : 0 < c := by rcases hc with hc | hc <;> omega
            have h3 : sc (t c) ≤ sc (t ((c - 1) / 2)) :=
              h1 c hcsz hc1 hcc (by omega)
            rw [hcp] at h3
            omega
        · omega

theorem su_isHeap_increase {sc : Nat → Nat} {size : Nat} (gas : Nat) (t : Nat → Nat)
    (cur x : Nat) (h : IsHeap sc t size) (hcs : cur < size)
    (hx : sc (t cur) ≤ sc x) (hgas : cur ≤ gas) :
    IsHeap sc (secp256k1_sift_up sc gas t cur x) size := by
  apply su_isHeap_gen gas cur t hcs
  · intro j hj hj0 _ _; exact h j hj hj0
  · intro c hc hcsz
    refine Nat.le_trans ?_ hx
    rcases hc with hc | hc <;> subst hc
    · have := h _ hcsz (by omega)
      rwa [parent_of_left] at this
    · have := h _ hcsz (by omega)
      rwa [parent_of_right] at this
  · intro hc0 c hc hcsz
    have h2 := h cur hcs (by omega)
    rcases hc with hc | hc <;> subst hc
    · have h1 := h _ hcsz (by omega)
      rw [parent_of_left] at h1
      omega
    · have h1 := h _ hcsz (by omega)
      rw [parent_of_right] at h1
      omega
  · exact hgas

/-! ### replace: returned root, size, order, and contents -/

theorem replace_fst (sc : Nat → Nat) (heap : secp256k1_scalar_heap) (x : Nat) :
    (secp256k1_replace sc heap x).1 = heap.tree 0 := rfl

theorem replace_size (sc : Nat → Nat) (heap : secp256k1_scalar_heap) (x : Nat) :
    (secp256k1_replace sc heap x).2.size = heap.size := rfl

theorem sd_isHeap_root {sc : Nat → Nat} {size : Nat} (tree : Nat → Nat) (x : Nat)
    (HH : ∀ j, j < size → 0 < j → 0 < (j - 1) / 2 → sc (tree j) ≤ sc (tree ((j - 1) / 2))) :
    IsHeap sc (secp256k1_sift_down sc size size tree 0 x) size := by
  intro j hj hj0
  exact sd_isHeap size tree 0 x (by omega) (fun j hjs hj0 hp => HH j hjs hj0 hp)
    j hj hj0 (Nat.zero_le _)

theorem replace_isHeap (sc : Nat → Nat) (heap : secp256k1_scalar_heap) (x : Nat)
    (h : IsHeap sc heap.tree heap.size) :
    IsHeap sc (secp256k1_replace sc heap x).2.tree (secp256k1_replace sc heap x).2.size := by
  show IsHeap sc (secp256k1_sift_floyd sc heap.size heap.size heap.tree 0 x) heap.size
  rw [floyd_eq_sd_root heap.tree x h]
  exact sd_isHeap_root heap.tree x (fun j hj hj0 _ => h j hj hj0)

theorem replace_treeMS (sc : Nat → Nat) (heap : secp256k1_scalar_heap) (x : Nat)
    (h : 0 < heap.size) :
    treeMS (secp256k1_replace sc heap x).2.tree (secp256k1_replace sc heap x).2.size
      + {heap.tree 0} = treeMS heap.tree heap.size + {x} :=
  sf_treeMS heap.size heap.tree 0 x h

/-! ### Weighted sums over index multisets and the initial heap -/

section Sums

variable {G : Type} [AddCommMonoid G]

theorem sumMS_cons (sc : Nat → Nat) (pt : Nat → G) (a : Nat) (m : Multiset Nat) :
    sumMS sc pt (a ::ₘ m) = sc a • pt a + sumMS sc pt m := by
  simp [sumMS]

theorem sumMS_add (sc : Nat → Nat) (pt : Nat → G) (m1 m2 : Multiset Nat) :
    sumMS sc pt (m1 + m2) = sumMS sc pt m1 + sumMS sc pt m2 := by
  simp [sumMS]

theorem sumMS_singleton (sc : Nat → Nat) (pt : Nat → G) (a : Nat) :
    sumMS sc pt {a} = sc a • pt a := by
  simp [sumMS]

theorem sumMS_congr {sc sc' : Nat → Nat} {pt pt' : Nat → G} {m : Multiset Nat}
    (h : ∀ i ∈ m, sc i = sc' i ∧ pt i = pt' i) :
    sumMS sc pt m = sumMS sc' pt' m := by
  unfold sumMS
  congr 1
  apply Multiset.map_congr rfl
  intro i hi
  rw [(h i hi).1, (h i hi).2]

theorem scTotal_updf {sc : Nat → Nat} {n first v : Nat} (h : first < n) :
    scTotal (updf sc first v) n + sc first = scTotal sc n + v := by
  induction n with
  | zero => omega
  | succ m ih =>
    simp only [scTotal, Finset.sum_range_succ] at ih ⊢
    by_cases hf : first = m
    · subst hf
      have hsame : ∑ i ∈ Finset.range first, updf sc first v i
          = ∑ i ∈ Finset.range first, sc i := by
        apply Finset.sum_congr rfl
        intro i hi
        exact updf_ne sc v (by simp at hi; omega)
      rw [hsame, updf_eq]
      omega
    · have hfm : first < m := by omega
      have hlast : updf sc first v m = sc m := updf_ne sc v (fun hc => hf hc.symm)
      rw [hlast]
      have := ih hfm
      omega

theorem mem_activeIndices [DecidableEq G] {sc : Nat → Nat} {pt : Nat → G} {n i : Nat} :
    i ∈ activeIndices sc pt n ↔ i < n ∧ sc i ≠ 0 ∧ pt i ≠ 0 := by
  simp [activeIndices, List.mem_filter, List.mem_range]

theorem activeIndices_nodup [DecidableEq G] (sc : Nat → Nat) (pt : Nat → G) (n : Nat) :
    (activeIndices sc pt n).Nodup :=
  (List.nodup_range n).filter _

theorem init_treeMS [DecidableEq G] (sc : Nat → Nat) (pt : Nat → G) (n : Nat) :
    treeMS (secp256k1_heap_init sc pt n).tree (secp256k1_heap_init sc pt n).size
      = (activeIndices sc pt n : Multiset Nat) := by
  show treeMS (secp256k1_heapify sc (activeIndices sc pt n).length
    (fun j => (activeIndices sc pt n).getD j 0)) (activeIndices sc pt n).length = _
  rw [heapify_treeMS, treeMS, getD_range_map]

theorem sumMS_activeIndices [DecidableEq G] (sc : Nat → Nat) (pt : Nat → G) (n : Nat) :
    sumMS sc pt (activeIndices sc pt n : Multiset Nat)
      = ∑ i ∈ Finset.range n, sc i • pt i := by
  induction n with
  | zero => simp [activeIndices, sumMS]
  | succ m ih =>
    rw [Finset.sum_range_succ, ← ih]
    by_cases hact : sc m ≠ 0 ∧ pt m ≠ 0
    · have : activeIndices sc pt (m + 1) = activeIndices sc pt m ++ [m] := by
        rw [activeIndices, activeIndices, List.range_succ, List.filter_append]
        congr 1
        simp [hact.1, hact.2]
      rw [this]
      rw [show ((activeIndices sc pt m ++ [m] : List Nat) : Multiset Nat)
        = (activeIndices sc pt m : Multiset Nat) + ([m] : List Nat) from by
          rw [← Multiset.coe_add]]
      rw [sumMS_add]
      congr 1
      show sumMS sc pt {m} = sc m • pt m
      exact sumMS_singleton sc pt m
    · have : activeIndices sc pt (m + 1) = activeIndices sc pt m := by
        rw [activeIndices, activeIndices, List.range_succ, List.filter_append]
        have : List.filter (fun i => decide (sc i ≠ 0 ∧ pt i ≠ 0)) [m] = [] := by
          simp only [List.filter, decide_eq_true_eq]
          rw [decide_eq_false hact]
        rw [this, List.append_nil]
      rw [this]
      have hzero : sc m • pt m = 0 := by
        rcases not_and_or.mp hact with h0 | h0
        · rw [not_not.mp h0, zero_smul]
        · rw [not_not.mp h0, smul_zero]
      rw [hzero, add_zero]

end Sums

/-! ### The inner reduction loop and the finishing ladder -/

section Loops

variable {G : Type} [AddCommMonoid G]

theorem reduceLoop_spec (first second : Nat) :
    ∀ (fuel : Nat) (sc : Nat → Nat) (pt : Nat → G),
    first ≠ second → 0 < sc second → sc second ≤ sc first → sc first < fuel →
    reduceLoop fuel first second sc pt =
      .ok (updf sc first (sc first % sc second),
           updf pt second ((sc first / sc second) • pt first + pt second)) := by
  intro fuel
  induction fuel with
  | zero => intro sc pt _ _ _ h; omega
  | succ f ih =>
    intro sc pt hne hb hba hlt
    have hsne : second ≠ first := Ne.symm hne
    simp only [reduceLoop, secp256k1_scalar_numsub]
    rw [if_neg (by omega : ¬ sc first < sc second)]
    have hsc1f : updf sc first (sc first - sc second) first = sc first - sc second :=
      updf_eq sc first _
    have hsc1s : updf sc first (sc first - sc second) second = sc second :=
      updf_ne sc _ hsne
    by_cases hcont : updf sc first (sc first - sc second) second ≤
        updf sc first (sc first - sc second) first
    · rw [if_pos hcont]
      rw [hsc1f, hsc1s] at hcont
      have hrec := ih (updf sc first (sc first - sc second))
        (updf pt second (pt first + pt second)) hne
        (by rw [hsc1s]; exact hb) (by rw [hsc1s, hsc1f]; exact hcont)
        (by rw [hsc1f]; omega)
      rw [hrec]
      have hscpart : updf (updf sc first (sc first - sc second)) first
          (updf sc first (sc first - sc second) first %
            updf sc first (sc first - sc second) second)
          = updf sc first (sc first % sc second) := by
        rw [hsc1f, hsc1s, updf_updf, ← Nat.mod_eq_sub_mod hba]
      have hptpart : updf (updf pt second (pt first + pt second)) second
          ((updf sc first (sc first - sc second) first /
              updf sc first (sc first - sc second) second) •
            updf pt second (pt first + pt second) first +
            updf pt second (pt first + pt second) second)
          = updf pt second ((sc first / sc second) • pt first + pt second) := by
        rw [hsc1f, hsc1s, updf_updf, updf_ne pt _ hne, updf_eq]
        rw [Nat.div_eq_sub_div hb hba, succ_nsmul, add_assoc]
      rw [hscpart, hptpart]
    · rw [if_neg hcont]
      rw [hsc1f, hsc1s] at hcont
      have hfb : sc first - sc second < sc second := by omega
      have hmod : sc first % sc second = sc first - sc second := by
        rw [Nat.mod_eq_sub_mod hba, Nat.mod_eq_of_lt hfb]
      have hdiv : sc first / sc second = 1 := by
        rw [Nat.div_eq_sub_div hb hba, Nat.div_eq_of_lt hfb]
      rw [hmod, hdiv, one_smul]

theorem reduceLoop_no_underflow (first second : Nat) :
    ∀ (fuel : Nat) (sc : Nat → Nat) (pt : Nat → G),
    sc second ≤ sc first →
    reduceLoop fuel first second sc pt ≠ .underflow := by
  intro fuel
  induction fuel with
  | zero =>
    intro sc pt _ h
    rw [reduceLoop] at h
    exact MResult.noConfusion h
  | succ f ih =>
    intro sc pt hba h
    simp only [reduceLoop, secp256k1_scalar_numsub] at h
    rw [if_neg (by omega : ¬ sc first < sc second)] at h
    by_cases hcont : updf sc first (sc first - sc second) second ≤
        updf sc first (sc first - sc second) first
    · rw [if_pos hcont] at h
      exact ih _ _ hcont h
    · rw [if_neg hcont] at h
      exact MResult.noConfusion h

theorem ladderLoop_spec :
    ∀ (fuel : Nat) (r : G) (first : Nat) (sc : Nat → Nat) (pt : Nat → G),
    0 < sc first → sc first < fuel →
    ladderLoop fuel r first sc pt = .ok (r + sc first • pt first) := by
  intro fuel
  induction fuel with
  | zero => intro r first sc pt _ h; omega
  | succ f ih =>
    intro r first sc pt hpos hlt
    have hupd1 : updf sc first (sc first / 2) first = sc first / 2 := updf_eq sc first _
    simp only [ladderLoop]
    by_cases hbit : sc first % 2 = 1
    · rw [if_pos hbit]
      by_cases hz : updf sc first (sc first / 2) first = 0
      · rw [if_pos hz]
        rw [hupd1] at hz
        have hone : sc first = 1 := by omega
        rw [hone, one_smul]
      · rw [if_neg hz]
        rw [hupd1] at hz
        have hrec := ih (r + pt first) first (updf sc first (sc first / 2))
          (updf pt first (pt first + pt first)) (by rw [hupd1]; omega)
          (by rw [hupd1]; omega)
        rw [hrec, hupd1, updf_eq]
        have hs : sc first = (sc first / 2) + (sc first / 2) + 1 := by omega
        have key : r + pt first + (sc first / 2) • (pt first + pt first)
            = r + sc first • pt first := by
          rw [smul_add, ← add_nsmul, add_assoc,
            add_comm (pt first) ((sc first / 2 + sc first / 2) • pt first), ← succ_nsmul]
          conv_rhs => rw [hs]
        rw [key]
    · rw [if_neg hbit]
      have hbit0 : sc first % 2 = 0 := by omega
      have hpos2 : 0 < sc first / 2 := by omega
      have hrec := ih r first (updf sc first (sc first / 2))
        (updf pt first (pt first + pt first)) (by rw [hupd1]; omega)
        (by rw [hupd1]; omega)
      rw [hrec, hupd1, updf_eq]
      have hs : sc first = (sc first / 2) + (sc first / 2) := by omega
      have key : r + (sc first / 2) • (pt first + pt first) = r + sc first • pt first := by
        rw [smul_add, ← add_nsmul]
        conv_rhs => rw [hs]
      rw [key]

theorem ladderLoop_no_underflow :
    ∀ (fuel : Nat) (r : G) (first : Nat) (sc : Nat → Nat) (pt : Nat → G),
    ladderLoop fuel r first sc pt ≠ .underflow := by
  intro fuel
  induction fuel with
  | zero =>
    intro r first sc pt h
    rw [ladderLoop] at h
    exact MResult.noConfusion h
  | succ f ih =>
    intro r first sc pt h
    simp only [ladderLoop] at h
    by_cases hbit : sc first % 2 = 1
    · rw [if_pos hbit] at h
      by_cases hz : updf sc first (sc first / 2) first = 0
      · rw [if_pos hz] at h
        exact MResult.noConfusion h
      · rw [if_neg hz] at h
        exact ih _ _ _ _ h
    · rw [if_neg hbit] at h
      exact ih _ _ _ _ h

end Loops

/-! ### One iteration of the driver's outer loop -/

theorem cons_eq_add_singleton (a : Nat) (m : Multiset Nat) : a ::ₘ m = m + {a} := by
  rw [← Multiset.singleton_add, add_comm]

theorem isHeap_congr {sc sc' tree : Nat → Nat} {size : Nat}
    (h : ∀ j, j < size → sc' (tree j) = sc (tree j)) (hh : IsHeap sc tree size) :
    IsHeap sc' tree size := by
  intro j hj hj0
  rw [h j hj, h _ (by omega)]
  exact hh j hj hj0

section OuterBody

variable {G : Type} [AddCommMonoid G]

theorem outerBody_eq (st : DriverState G) (sc1 : Nat → Nat) (pt1 : Nat → G)
    (hok : reduceLoop (st.sc st.first + 1) st.first (st.heap.tree 0) st.sc st.pt
      = .ok (sc1, pt1)) :
    outerBody st = if sc1 st.first = 0
      then .ok ⟨sc1, pt1, (secp256k1_heap_remove sc1 st.heap).2,
        (secp256k1_heap_remove sc1 st.heap).1⟩
      else .ok ⟨sc1, pt1, (secp256k1_replace sc1 st.heap st.first).2,
        (secp256k1_replace sc1 st.heap st.first).1⟩ := by
  simp only [outerBody]
  rw [hok]

/-- The exchange identity for one reduction round: replacing
`sc[first]` by `a % b` and folding `(a / b)` copies of `pt[first]` into
`pt[second]` preserves the configuration's weighted sum. -/
theorem sumMS_reduce (st : DriverState G) {n : Nat} {T : G}
    (hinv : DriverInv n T st) (hs : 0 < st.heap.size) :
    sumMS (updf st.sc st.first (st.sc st.first % st.sc (st.heap.tree 0)))
        (updf st.pt (st.heap.tree 0)
          ((st.sc st.first / st.sc (st.heap.tree 0)) • st.pt st.first
            + st.pt (st.heap.tree 0)))
        (treeMS st.heap.tree st.heap.size)
      + (st.sc st.first % st.sc (st.heap.tree 0)) • st.pt st.first
      = sumMS st.sc st.pt (treeMS st.heap.tree st.heap.size)
        + st.sc st.first • st.pt st.first := by
  obtain ⟨hnodup, hbound, hnz, haF, hheap, hdom, hsum⟩ := hinv
  have hFnm : st.first ∉ treeMS st.heap.tree st.heap.size :=
    (Multiset.nodup_cons.mp hnodup).1
  have hmsnd : (treeMS st.heap.tree st.heap.size).Nodup :=
    (Multiset.nodup_cons.mp hnodup).2
  have hsmem : st.heap.tree 0 ∈ treeMS st.heap.tree st.heap.size := tree0_mem_treeMS hs
  have hFs : st.first ≠ st.heap.tree 0 := fun h => hFnm (h ▸ hsmem)
  set MSe := (treeMS st.heap.tree st.heap.size).erase (st.heap.tree 0) with hmse
  have hdecomp : st.heap.tree 0 ::ₘ MSe = treeMS st.heap.tree st.heap.size :=
    Multiset.cons_erase hsmem
  have hsnm : st.heap.tree 0 ∉ MSe := by
    have := hdecomp ▸ hmsnd
    exact (Multiset.nodup_cons.mp this).1
  have hrest : sumMS (updf st.sc st.first (st.sc st.first % st.sc (st.heap.tree 0)))
      (updf st.pt (st.heap.tree 0)
        ((st.sc st.first / st.sc (st.heap.tree 0)) • st.pt st.first
          + st.pt (st.heap.tree 0))) MSe
      = sumMS st.sc st.pt MSe := by
    apply sumMS_congr
    intro i hi
    have hiMS : i ∈ treeMS st.heap.tree st.heap.size := hdecomp ▸ Multiset.mem_cons_of_mem hi
    have hi1 : i ≠ st.first := fun h => hFnm (h ▸ hiMS)
    have hi2 : i ≠ st.heap.tree 0 := fun h => hsnm (h ▸ hi)
    exact ⟨updf_ne st.sc _ hi1, updf_ne st.pt _ hi2⟩
  rw [← hdecomp, sumMS_cons, sumMS_cons, hrest]
  rw [updf_ne st.sc _ (Ne.symm hFs), updf_eq]
  have hkey : st.sc (st.heap.tree 0) •
      ((st.sc st.first / st.sc (st.heap.tree 0)) • st.pt st.first + st.pt (st.heap.tree 0))
      + sumMS st.sc st.pt MSe
      + (st.sc st.first % st.sc (st.heap.tree 0)) • st.pt st.first
      = st.sc st.first • st.pt st.first
        + (st.sc (st.heap.tree 0) • st.pt (st.heap.tree 0) + sumMS st.sc st.pt MSe) := by
    rw [smul_add, smul_smul]
    have hdm : st.sc (st.heap.tree 0) * (st.sc st.first / st.sc (st.heap.tree 0))
        + st.sc st.first % st.sc (st.heap.tree 0) = st.sc st.first :=
      Nat.div_add_mod _ _
    calc (st.sc (st.heap.tree 0) * (st.sc st.first / st.sc (st.heap.tree 0))) • st.pt st.first
          + st.sc (st.heap.tree 0) • st.pt (st.heap.tree 0) + sumMS st.sc st.pt MSe
          + (st.sc st.first % st.sc (st.heap.tree 0)) • st.pt st.first
        = (st.sc (st.heap.tree 0) * (st.sc st.first / st.sc (st.heap.tree 0))) • st.pt st.first
          + (st.sc st.first % st.sc (st.heap.tree 0)) • st.pt st.first
          + (st.sc (st.heap.tree 0) • st.pt (st.heap.tree 0) + sumMS st.sc st.pt MSe) := by
          abel
      _ = st.sc st.first • st.pt st.first
          + (st.sc (st.heap.tree 0) • st.pt (st.heap.tree 0) + sumMS st.sc st.pt MSe) := by
          rw [← add_nsmul, hdm]
  calc st.sc (st.heap.tree 0) •
      ((st.sc st.first / st.sc (st.heap.tree 0)) • st.pt st.first + st.pt (st.heap.tree 0))
      + sumMS st.sc st.pt MSe
      + (st.sc st.first % st.sc (st.heap.tree 0)) • st.pt st.first
      = st.sc st.first • st.pt st.first
        + (st.sc (st.heap.tree 0) • st.pt (st.heap.tree 0) + sumMS st.sc st.pt MSe) := hkey
    _ = st.sc (st.heap.tree 0) • st.pt (st.heap.tree 0) + sumMS st.sc st.pt MSe
        + st.sc st.first • st.pt st.first := by abel

end OuterBody

section OuterSpec

variable {G : Type} [AddCommMonoid G]

theorem outerBody_spec {n : Nat} {T : G} (st : DriverState G)
    (hinv : DriverInv n T st) (hs : 0 < st.heap.size) :
    ∃ st', outerBody st = .ok st' ∧ DriverInv n T st' ∧
      st'.first = st.heap.tree 0 ∧
      st'.sc = updf st.sc st.first (st.sc st.first % st.sc (st.heap.tree 0)) ∧
      scTotal st'.sc n < scTotal st.sc n ∧
      (st.sc st.first % st.sc (st.heap.tree 0) = 0 →
        st'.heap.size = st.heap.size - 1 ∧
        treeMS st'.heap.tree st'.heap.size + {st.heap.tree 0}
          = treeMS st.heap.tree st.heap.size) ∧
      (st.sc st.first % st.sc (st.heap.tree 0) ≠ 0 →
        st'.heap.size = st.heap.size ∧
        treeMS st'.heap.tree st'.heap.size + {st.heap.tree 0}
          = treeMS st.heap.tree st.heap.size + {st.first}) := by
  obtain ⟨hnodup, hbound, hnz, haF, hheap, hdom, hsum⟩ := hinv
  have hFnm : st.first ∉ treeMS st.heap.tree st.heap.size :=
    (Multiset.nodup_cons.mp hnodup).1
  have hmsnd : (treeMS st.heap.tree st.heap.size).Nodup :=
    (Multiset.nodup_cons.mp hnodup).2
  have hsmem : st.heap.tree 0 ∈ treeMS st.heap.tree st.heap.size := tree0_mem_treeMS hs
  have hFs : st.first ≠ st.heap.tree 0 := fun h => hFnm (h ▸ hsmem)
  have hb : 0 < st.sc (st.heap.tree 0) := Nat.pos_of_ne_zero (hnz _ hsmem)
  have hba : st.sc (st.heap.tree 0) ≤ st.sc st.first := hdom _ hsmem
  have hFn : st.first < n := hbound st.first (Multiset.mem_cons_self _ _)
  have hrl := reduceLoop_spec st.first (st.heap.tree 0) (st.sc st.first + 1) st.sc st.pt
    hFs hb hba (Nat.lt_succ_self _)
  set sc1 := updf st.sc st.first (st.sc st.first % st.sc (st.heap.tree 0)) with hsc1
  set pt1 := updf st.pt (st.heap.tree 0)
    ((st.sc st.first / st.sc (st.heap.tree 0)) • st.pt st.first
      + st.pt (st.heap.tree 0)) with hpt1
  have hob := outerBody_eq st sc1 pt1 hrl
  have hsc1F : sc1 st.first = st.sc st.first % st.sc (st.heap.tree 0) := updf_eq _ _ _
  have hsc1MS : ∀ i ∈ treeMS st.heap.tree st.heap.size, sc1 i = st.sc i :=
    fun i hi => updf_ne _ _ (fun h => hFnm (h ▸ hi))
  have hpt1F : pt1 st.first = st.pt st.first := updf_ne _ _ hFs
  have hsc1S : sc1 (st.heap.tree 0) = st.sc (st.heap.tree 0) := hsc1MS _ hsmem
  have hheap1 : IsHeap sc1 st.heap.tree st.heap.size :=
    isHeap_congr (fun j hj => hsc1MS _ (mem_treeMS.mpr ⟨j, hj, rfl⟩)) hheap
  have hscT : scTotal sc1 n + st.sc st.first
      = scTotal st.sc n + st.sc st.first % st.sc (st.heap.tree 0) := scTotal_updf hFn
  have hmlt : st.sc st.first % st.sc (st.heap.tree 0) < st.sc st.first := by
    have := Nat.mod_lt (st.sc st.first) hb
    omega
  have hscTlt : scTotal sc1 n < scTotal st.sc n := by omega
  have hsum1 := sumMS_reduce st ⟨hnodup, hbound, hnz, haF, hheap, hdom, hsum⟩ hs
  rw [← hsc1, ← hpt1] at hsum1
  have hroot_dom : ∀ i ∈ treeMS st.heap.tree st.heap.size,
      st.sc i ≤ st.sc (st.heap.tree 0) := by
    intro i hi
    obtain ⟨j, hj, hji⟩ := mem_treeMS.mp hi
    exact hji ▸ isHeap_le_root hheap j hj
  by_cases hzero : st.sc st.first % st.sc (st.heap.tree 0) = 0
  · -- scalar exhausted: pop a fresh first
    refine ⟨⟨sc1, pt1, (secp256k1_heap_remove sc1 st.heap).2,
      (secp256k1_heap_remove sc1 st.heap).1⟩, ?_, ?_, ?_, rfl, hscTlt, ?_, ?_⟩
    · rw [hob, if_pos (by rw [hsc1F, hzero])]
    · have hMS' := heap_remove_treeMS sc1 st.heap hs
      have hmem' : ∀ i ∈ treeMS (secp256k1_heap_remove sc1 st.heap).2.tree
          (secp256k1_heap_remove sc1 st.heap).2.size,
          i ∈ treeMS st.heap.tree st.heap.size := by
        intro i hi
        rw [← hMS']
        exact Multiset.mem_add.mpr (Or.inl hi)
      refine ⟨?_, ?_, ?_, ?_, ?_, ?_, ?_⟩
      · show ((secp256k1_heap_remove sc1 st.heap).1 ::ₘ _).Nodup
        rw [heap_remove_fst, cons_eq_add_singleton, hMS']
        exact hmsnd
      · intro i hi
        show i < n
        rw [heap_remove_fst, cons_eq_add_singleton, hMS'] at hi
        exact hbound i (Multiset.mem_cons_of_mem hi)
      · intro i hi
        show sc1 i ≠ 0
        rw [hsc1MS i (hmem' i hi)]
        exact hnz i (hmem' i hi)
      · show sc1 (secp256k1_heap_remove sc1 st.heap).1 ≠ 0
        rw [heap_remove_fst, hsc1S]
        exact hnz _ hsmem
      · exact heap_remove_isHeap sc1 st.heap hheap1
      · intro i hi
        show sc1 i ≤ sc1 (secp256k1_heap_remove sc1 st.heap).1
        rw [heap_remove_fst, hsc1S, hsc1MS i (hmem' i hi)]
        exact hroot_dom i (hmem' i hi)
      · show sc1 (secp256k1_heap_remove sc1 st.heap).1
            • pt1 (secp256k1_heap_remove sc1 st.heap).1 + _ = T
        rw [heap_remove_fst]
        have hsplit : sumMS sc1 pt1 (treeMS (secp256k1_heap_remove sc1 st.heap).2.tree
            (secp256k1_heap_remove sc1 st.heap).2.size) + sc1 (st.heap.tree 0) • pt1 (st.heap.tree 0)
            = sumMS sc1 pt1 (treeMS st.heap.tree st.heap.size) := by
          rw [← sumMS_singleton sc1 pt1 (st.heap.tree 0), ← sumMS_add, hMS']
        rw [hzero, zero_smul, add_zero] at hsum1
        rw [add_comm, hsplit, hsum1]
        rw [← hsum]
        exact add_comm _ _
    · exact heap_remove_fst sc1 st.heap
    · intro _
      exact ⟨heap_remove_size sc1 st.heap, heap_remove_treeMS sc1 st.heap hs⟩
    · intro hc
      exact absurd hzero hc
  · -- remaining scalar is reinserted: replace the root with first
    refine ⟨⟨sc1, pt1, (secp256k1_replace sc1 st.heap st.first).2,
      (secp256k1_replace sc1 st.heap st.first).1⟩, ?_, ?_, ?_, rfl, hscTlt, ?_, ?_⟩
    · rw [hob, if_neg (by rw [hsc1F]; exact hzero)]
    · have hMS' := replace_treeMS sc1 st.heap st.first hs
      have hmem' : ∀ i ∈ treeMS (secp256k1_replace sc1 st.heap st.first).2.tree
          (secp256k1_replace sc1 st.heap st.first).2.size,
          i ∈ treeMS st.heap.tree st.heap.size ∨ i = st.first := by
        intro i hi
        have : i ∈ treeMS st.heap.tree st.heap.size + {st.first} := by
          rw [← hMS']
          exact Multiset.mem_add.mpr (Or.inl hi)
        rcases Multiset.mem_add.mp this with h | h
        · exact Or.inl h
        · exact Or.inr (Multiset.mem_singleton.mp h)
      refine ⟨?_, ?_, ?_, ?_, ?_, ?_, ?_⟩
      · show ((secp256k1_replace sc1 st.heap st.first).1 ::ₘ _).Nodup
        rw [replace_fst, cons_eq_add_singleton, hMS', ← cons_eq_add_singleton]
        exact hnodup
      · intro i hi
        show i < n
        rw [replace_fst, cons_eq_add_singleton, hMS', ← cons_eq_add_singleton] at hi
        exact hbound i hi
      · intro i hi
        show sc1 i ≠ 0
        rcases hmem' i hi with h | h
        · rw [hsc1MS i h]; exact hnz i h
        · rw [h, hsc1F]; exact hzero
      · show sc1 (secp256k1_replace sc1 st.heap st.first).1 ≠ 0
        rw [replace_fst, hsc1S]
        exact hnz _ hsmem
      · exact replace_isHeap sc1 st.heap st.first hheap1
      · intro i hi
        show sc1 i ≤ sc1 (secp256k1_replace sc1 st.heap st.first).1
        rw [replace_fst, hsc1S]
        rcases hmem' i hi with h | h
        · rw [hsc1MS i h]; exact hroot_dom i h
        · rw [h, hsc1F]
          have := Nat.mod_lt (st.sc st.first) hb
          omega
      · show sc1 (secp256k1_replace sc1 st.heap st.first).1
            • pt1 (secp256k1_replace sc1 st.heap st.first).1 + _ = T
        rw [replace_fst]
        have hsplit : sumMS sc1 pt1 (treeMS (secp256k1_replace sc1 st.heap st.first).2.tree
            (secp256k1_replace sc1 st.heap st.first).2.size)
            + sc1 (st.heap.tree 0) • pt1 (st.heap.tree 0)
            = sumMS sc1 pt1 (treeMS st.heap.tree st.heap.size)
              + sc1 st.first • pt1 st.first := by
          rw [← sumMS_singleton sc1 pt1 (st.heap.tree 0), ← sumMS_add, hMS',
            sumMS_add, sumMS_singleton]
        rw [add_comm, hsplit, hsc1F, hpt1F, hsum1, ← hsum]
        exact add_comm _ _
    · exact replace_fst sc1 st.heap st.first
    · intro hc
      exact absurd hc hzero
    · intro _
      exact ⟨replace_size sc1 st.heap st.first, replace_treeMS sc1 st.heap st.first hs⟩

end OuterSpec

/-! ### The outer loop, initialization, and the driver -/

section DriverProof

variable {G : Type} [AddCommMonoid G]

theorem outerLoop_spec {n : Nat} {T : G} :
    ∀ (fuel : Nat) (st : DriverState G), DriverInv n T st → scTotal st.sc n < fuel →
    ∃ st', outerLoop fuel st = .ok st' ∧ DriverInv n T st' ∧ st'.heap.size = 0 := by
  intro fuel
  induction fuel with
  | zero => intro st _ h; omega
  | succ f ih =>
    intro st hinv hlt
    rw [outerLoop]
    by_cases hs : st.heap.size = 0
    · rw [if_pos hs]
      exact ⟨st, rfl, hinv, hs⟩
    · rw [if_neg hs]
      obtain ⟨st', hob, hinv', _, _, hsct, _, _⟩ :=
        outerBody_spec st hinv (Nat.pos_of_ne_zero hs)
      rw [hob]
      exact ih st' hinv' (by omega)

theorem outerLoop_no_underflow {n : Nat} {T : G} :
    ∀ (fuel : Nat) (st : DriverState G), DriverInv n T st →
    outerLoop fuel st ≠ .underflow := by
  intro fuel
  induction fuel with
  | zero =>
    intro st _ h
    rw [outerLoop] at h
    by_cases hs : st.heap.size = 0
    · rw [if_pos hs] at h; exact MResult.noConfusion h
    · rw [if_neg hs] at h; exact MResult.noConfusion h
  | succ f ih =>
    intro st hinv h
    rw [outerLoop] at h
    by_cases hs : st.heap.size = 0
    · rw [if_pos hs] at h; exact MResult.noConfusion h
    · rw [if_neg hs] at h
      obtain ⟨st', hob, hinv', _, _, _, _, _⟩ :=
        outerBody_spec st hinv (Nat.pos_of_ne_zero hs)
      rw [hob] at h
      exact ih st' hinv' h

theorem dblAdd_eq_smul : ∀ (fuel s : Nat) (P : G), s ≤ fuel → dblAdd fuel s P = s • P := by
  intro fuel
  induction fuel with
  | zero =>
    intro s P h
    have hs : s = 0 := by omega
    rw [hs, dblAdd, zero_smul]
  | succ f ih =>
    intro s P h
    rw [dblAdd]
    by_cases hs : s = 0
    · rw [if_pos hs, hs, zero_smul]
    · rw [if_neg hs]
      rw [ih (s / 2) (P + P) (by omega)]
      have hhalf : (s / 2) • (P + P) = (s / 2 + s / 2) • P := by
        rw [smul_add, ← add_nsmul]
      by_cases hbit : s % 2 = 1
      · rw [if_pos hbit, hhalf]
        have hsplit : s = s / 2 + s / 2 + 1 := by omega
        conv_rhs => rw [hsplit]
        rw [succ_nsmul, add_comm]
      · rw [if_neg hbit, hhalf, zero_add]
        have hsplit : s = s / 2 + s / 2 := by omega
        conv_rhs => rw [hsplit]

theorem naive_eq_sum [DecidableEq G] (sc : Nat → Nat) (pt : Nat → G) (n : Nat) :
    naiveMultiScalarMul sc pt n = ∑ i ∈ Finset.range n, sc i • pt i := by
  apply Finset.sum_congr rfl
  intro i _
  exact dblAdd_eq_smul (sc i) (sc i) (pt i) (Nat.le_refl _)

theorem driver_init_inv [DecidableEq G] (sc : Nat → Nat) (pt : Nat → G) (n : Nat)
    (hs : (secp256k1_heap_init sc pt n).size ≠ 0) :
    DriverInv n (∑ i ∈ Finset.range n, sc i • pt i)
      (⟨sc, pt, (secp256k1_heap_remove sc (secp256k1_heap_init sc pt n)).2,
       (secp256k1_heap_remove sc (secp256k1_heap_init sc pt n)).1⟩ : DriverState G) := by
  set H := secp256k1_heap_init sc pt n with hHdef
  have hs0 : 0 < H.size := Nat.pos_of_ne_zero hs
  have hH : IsHeap sc H.tree H.size := init_isHeap sc pt n
  have hMS : treeMS H.tree H.size = (activeIndices sc pt n : Multiset Nat) :=
    init_treeMS sc pt n
  have hact_nodup : (activeIndices sc pt n : Multiset Nat).Nodup :=
    Multiset.coe_nodup.mpr (activeIndices_nodup sc pt n)
  have hmemact : ∀ i ∈ treeMS H.tree H.size, i < n ∧ sc i ≠ 0 ∧ pt i ≠ 0 := by
    intro i hi
    rw [hMS] at hi
    exact mem_activeIndices.mp (Multiset.mem_coe.mp hi)
  have hfst : (secp256k1_heap_remove sc H).1 = H.tree 0 := heap_remove_fst sc H
  have hMS' := heap_remove_treeMS sc H hs0
  have hrmem : H.tree 0 ∈ treeMS H.tree H.size := tree0_mem_treeMS hs0
  have hmem' : ∀ i ∈ treeMS (secp256k1_heap_remove sc H).2.tree
      (secp256k1_heap_remove sc H).2.size, i ∈ treeMS H.tree H.size := by
    intro i hi
    rw [← hMS']
    exact Multiset.mem_add.mpr (Or.inl hi)
  refine ⟨?_, ?_, ?_, ?_, ?_, ?_, ?_⟩
  · show ((secp256k1_heap_remove sc H).1 ::ₘ _).Nodup
    rw [hfst, cons_eq_add_singleton, hMS', hMS]
    exact hact_nodup
  · intro i hi
    show i < n
    rw [hfst, cons_eq_add_singleton, hMS'] at hi
    exact (hmemact i hi).1
  · intro i hi
    exact (hmemact i (hmem' i hi)).2.1
  · show sc (secp256k1_heap_remove sc H).1 ≠ 0
    rw [hfst]
    exact (hmemact _ hrmem).2.1
  · exact heap_remove_isHeap sc H hH
  · intro i hi
    show sc i ≤ sc (secp256k1_heap_remove sc H).1
    rw [hfst]
    obtain ⟨j, hj, hji⟩ := mem_treeMS.mp (hmem' i hi)
    exact hji ▸ isHeap_le_root hH j hj
  · show sc (secp256k1_heap_remove sc H).1 • pt (secp256k1_heap_remove sc H).1 + _ = _
    rw [hfst]
    have hsplit : sumMS sc pt (treeMS (secp256k1_heap_remove sc H).2.tree
        (secp256k1_heap_remove sc H).2.size) + sc (H.tree 0) • pt (H.tree 0)
        = sumMS sc pt (treeMS H.tree H.size) := by
      rw [← sumMS_singleton sc pt (H.tree 0), ← sumMS_add, hMS']
    rw [add_comm, hsplit, hMS, sumMS_activeIndices]

theorem ecmult_multi_ok [DecidableEq G] (fuel : Nat) (sc : Nat → Nat) (pt : Nat → G)
    (n : Nat) (hfuel : scTotal sc n < fuel) :
    secp256k1_ecmult_multi fuel sc pt n
      = .ok (∑ i ∈ Finset.range n, sc i • pt i) := by
  simp only [secp256k1_ecmult_multi]
  by_cases hs : (secp256k1_heap_init sc pt n).size = 0
  · rw [if_pos hs]
    have hzero : ∑ i ∈ Finset.range n, sc i • pt i = 0 := by
      apply Finset.sum_eq_zero
      intro i hi
      have hact : activeIndices sc pt n = [] := by
        have := hs
        rw [secp256k1_heap_init] at this
        exact List.length_eq_zero.mp this
      by_cases hz : sc i ≠ 0 ∧ pt i ≠ 0
      · exfalso
        have : i ∈ activeIndices sc pt n :=
          mem_activeIndices.mpr ⟨Finset.mem_range.mp hi, hz.1, hz.2⟩
        rw [hact] at this
        exact List.not_mem_nil i this
      · rcases not_and_or.mp hz with h0 | h0
        · rw [not_not.mp h0, zero_smul]
        · rw [not_not.mp h0, smul_zero]
    rw [hzero]
  · rw [if_neg hs]
    have hinv := driver_init_inv sc pt n hs
    obtain ⟨st', hol, hinv', hsz⟩ :=
      outerLoop_spec fuel _ hinv hfuel
    rw [hol]
    have hTfin : st'.sc st'.first • st'.pt st'.first
        = ∑ i ∈ Finset.range n, sc i • pt i := by
      have hsum := hinv'.2.2.2.2.2.2
      rw [hsz] at hsum
      have htz : treeMS st'.heap.tree 0 = 0 := rfl
      rw [htz] at hsum
      have hz0 : sumMS st'.sc st'.pt (0 : Multiset Nat) = 0 := by simp [sumMS]
      rw [hz0, add_zero] at hsum
      exact hsum
    have hpos : 0 < st'.sc st'.first := Nat.pos_of_ne_zero hinv'.2.2.2.1
    show ladderLoop (st'.sc st'.first + 1) 0 st'.first st'.sc st'.pt = _
    rw [ladderLoop_spec _ 0 _ _ _ hpos (Nat.lt_succ_self _), zero_add, hTfin]

theorem ecmult_multi_no_underflow [DecidableEq G]
    (fuel : Nat) (sc : Nat → Nat) (pt : Nat → G) (n : Nat) :
    secp256k1_ecmult_multi fuel sc pt n ≠ .underflow := by
  intro h
  simp only [secp256k1_ecmult_multi] at h
  by_cases hs : (secp256k1_heap_init sc pt n).size = 0
  · rw [if_pos hs] at h
    exact MResult.noConfusion h
  · rw [if_neg hs] at h
    have hinv := driver_init_inv sc pt n hs
    cases hres : outerLoop fuel (⟨sc, pt,
        (secp256k1_heap_remove sc (secp256k1_heap_init sc pt n)).2,
        (secp256k1_heap_remove sc (secp256k1_heap_init sc pt n)).1⟩ : DriverState G) with
    | ok st' =>
      rw [hres] at h
      exact ladderLoop_no_underflow _ _ _ _ _ h
    | underflow =>
      exact outerLoop_no_underflow fuel _ hinv hres
    | outOfFuel =>
      rw [hres] at h
      exact MResult.noConfusion h

end DriverProof

/-! ### Remaining helpers for the claim statements -/

theorem floyd_isHeap_root (sc : Nat → Nat) (size : Nat) (tree : Nat → Nat) (x : Nat)
    (h : IsHeap sc tree size) :
    IsHeap sc (secp256k1_sift_floyd sc size size tree 0 x) size := by
  rw [floyd_eq_sd_root tree x h]
  exact sd_isHeap_root tree x (fun j hj hj0 _ => h j hj hj0)

/-- Projection of a driver-loop outcome to the in-hand index. -/
def mresFirst {G : Type} : MResult (DriverState G) → Option Nat
  | .ok st => some st.first
  | _ => none

/-- Projection of a driver-loop outcome to the heap's index multiset. -/
def mresHeapMS {G : Type} : MResult (DriverState G) → Multiset Nat
  | .ok st => treeMS st.heap.tree st.heap.size
  | _ => 0

/-! ### The claims -/

/-- C1: for every `n` in `[0, MAX_N]` and all scalar/point arrays,
`secp256k1_ecmult_multi` (run with any fuel above the total of the
scalars, a bound its loops provably never exhaust) returns exactly the
naive reference result: the sum over `i` of `scalars[i] • points[i]`,
each term computed by an independent double-and-add ladder. -/
theorem C1_ecmult_multi_correct {G : Type} [AddCommMonoid G] [DecidableEq G]
    (fuel : Nat) (sc : Nat → Nat) (pt : Nat → G) (n : Nat)
    (_hn : n ≤ SECP256K1_ECMULT_MULTI_MAX_N) (hfuel : scTotal sc n < fuel) :
    secp256k1_ecmult_multi fuel sc pt n = .ok (naiveMultiScalarMul sc pt n) := by
  rw [naive_eq_sum]
  exact ecmult_multi_ok fuel sc pt n hfuel

theorem C1_witness :
    (2 ≤ SECP256K1_ECMULT_MULTI_MAX_N ∧
      scTotal (fun i => [3, 2].getD i 0) 2 < 6) ∧
    secp256k1_ecmult_multi 6 (fun i => [3, 2].getD i 0)
        (fun i => ([5, 7].getD i 0 : Int)) 2
      = .ok (naiveMultiScalarMul (fun i => [3, 2].getD i 0)
          (fun i => ([5, 7].getD i 0 : Int)) 2) :=
  ⟨⟨by decide, by decide⟩,
    C1_ecmult_multi_correct 6 (fun i => [3, 2].getD i 0)
      (fun i => ([5, 7].getD i 0 : Int)) 2 (by decide) (by decide)⟩

/-- C2: the max-heap invariant holds after the build performed by the
heap initializer, and is preserved by each operation in the context the
program invokes it: sift_down called at `node` when every pair strictly
below `node`'s level is already heap-ordered (the bottom-up build and
the remove path), sift_up on a valid heap when the candidate is at
least the value it replaces, sift_floyd at the root of a valid heap
(the replace path), and the complete replace-root and remove-root
operations on a valid heap. -/
theorem C2_heap_invariant {G : Type} [AddCommMonoid G] [DecidableEq G]
    (sc : Nat → Nat) (pt : Nat → G) (n : Nat) (heap : secp256k1_scalar_heap)
    (tree : Nat → Nat) (size x node cur : Nat) :
    IsHeap sc (secp256k1_heap_init sc pt n).tree (secp256k1_heap_init sc pt n).size ∧
    ((∀ j, j < size → 0 < j → node < (j - 1) / 2 →
        sc (tree j) ≤ sc (tree ((j - 1) / 2))) →
      ∀ j, j < size → 0 < j → node ≤ (j - 1) / 2 →
        sc (secp256k1_sift_down sc size size tree node x j) ≤
        sc (secp256k1_sift_down sc size size tree node x ((j - 1) / 2))) ∧
    (IsHeap sc tree size → cur < size → sc (tree cur) ≤ sc x →
      IsHeap sc (secp256k1_sift_up sc cur tree cur x) size) ∧
    (IsHeap sc tree size →
      IsHeap sc (secp256k1_sift_floyd sc size size tree 0 x) size) ∧
    (IsHeap sc heap.tree heap.size →
      IsHeap sc (secp256k1_replace sc heap x).2.tree (secp256k1_replace sc heap x).2.size) ∧
    (IsHeap sc heap.tree heap.size →
      IsHeap sc (secp256k1_heap_remove sc heap).2.tree
        (secp256k1_heap_remove sc heap).2.size) := by
  refine ⟨init_isHeap sc pt n, ?_, ?_, ?_, ?_, ?_⟩
  · intro HH j hj hj0 hpar
    exact sd_isHeap size tree node x (by omega) HH j hj hj0 hpar
  · intro hh hcs hx
    exact su_isHeap_increase cur tree cur x hh hcs hx (Nat.le_refl _)
  · intro hh
    exact floyd_isHeap_root sc size tree x hh
  · intro hh
    exact replace_isHeap sc heap x hh
  · intro hh
    exact heap_remove_isHeap sc heap hh

theorem C2_witness :
    IsHeap (fun i => [9, 5, 3].getD i 0)
      (secp256k1_heap_init (fun i => [9, 5, 3].getD i 0)
        (fun i => ([1, 2, 4].getD i 0 : Int)) 3).tree
      (secp256k1_heap_init (fun i => [9, 5, 3].getD i 0)
        (fun i => ([1, 2, 4].getD i 0 : Int)) 3).size ∧
    IsHeap (fun i => [9, 5, 3, 11].getD i 0)
      (secp256k1_sift_up (fun i => [9, 5, 3, 11].getD i 0) 2 (fun j => j) 2 3) 3 ∧
    IsHeap (fun i => [9, 5, 3, 7].getD i 0)
      (secp256k1_sift_floyd (fun i => [9, 5, 3, 7].getD i 0) 3 3 (fun j => j) 0 3) 3 ∧
    IsHeap (fun i => [9, 5, 3, 7].getD i 0)
      (secp256k1_replace (fun i => [9, 5, 3, 7].getD i 0)
        ⟨(fun j => j), 3⟩ 3).2.tree
      (secp256k1_replace (fun i => [9, 5, 3, 7].getD i 0)
        ⟨(fun j => j), 3⟩ 3).2.size ∧
    IsHeap (fun i => [9, 5, 3].getD i 0)
      (secp256k1_heap_remove (fun i => [9, 5, 3].getD i 0)
        ⟨(fun j => j), 3⟩).2.tree
      (secp256k1_heap_remove (fun i => [9, 5, 3].getD i 0)
        ⟨(fun j => j), 3⟩).2.size :=
  ⟨(C2_heap_invariant (fun i => [9, 5, 3].getD i 0)
      (fun i => ([1, 2, 4].getD i 0 : Int)) 3 ⟨(fun j => j), 3⟩ (fun j => j) 3 0 0 0).1,
   (C2_heap_invariant (fun i => [9, 5, 3, 11].getD i 0)
      (fun i => (0 : Int)) 0 ⟨(fun j => j), 3⟩ (fun j => j) 3 3 0 2).2.2.1
      (by decide) (by decide) (by decide),
   (C2_heap_invariant (fun i => [9, 5, 3, 7].getD i 0)
      (fun i => (0 : Int)) 0 ⟨(fun j => j), 3⟩ (fun j => j) 3 3 0 0).2.2.2.1
      (by decide),
   (C2_heap_invariant (fun i => [9, 5, 3, 7].getD i 0)
      (fun i => (0 : Int)) 0 ⟨(fun j => j), 3⟩ (fun j => j) 3 3 0 0).2.2.2.2.1
      (by decide),
   (C2_heap_invariant (fun i => [9, 5, 3].getD i 0)
      (fun i => (0 : Int)) 0 ⟨(fun j => j), 3⟩ (fun j => j) 3 0 0 0).2.2.2.2.2
      (by decide)⟩

/-- C3: the non-modular scalar subtraction inside the driver's
reduction loop is never invoked with a minuend smaller than the
subtrahend: for every fuel, input size, and scalar/point arrays, the
driver never produces the `underflow` outcome that the embedding
returns the moment any `secp256k1_scalar_numsub` call would violate
its `a >= b` precondition (the first, unguarded do-while iteration
included). -/
theorem C3_no_numsub_underflow {G : Type} [AddCommMonoid G] [DecidableEq G]
    (fuel : Nat) (sc : Nat → Nat) (pt : Nat → G) (n : Nat) :
    secp256k1_ecmult_multi fuel sc pt n ≠ .underflow :=
  ecmult_multi_no_underflow fuel sc pt n

/-- C4: for every input satisfying the precondition `n ≤ MAX_N`, the
driver terminates: with fuel one above the total of the scalars (a
quantity its reduction rounds strictly decrease) it completes, the
reduction loop performing finitely many rounds and the binary ladder
exiting on the last set bit of the remaining non-zero scalar, so the
`outOfFuel` outcome is never reached. -/
theorem C4_terminates {G : Type} [AddCommMonoid G] [DecidableEq G]
    (sc : Nat → Nat) (pt : Nat → G) (n : Nat)
    (_hn : n ≤ SECP256K1_ECMULT_MULTI_MAX_N) :
    ∃ r, secp256k1_ecmult_multi (scTotal sc n + 1) sc pt n = .ok r :=
  ⟨_, ecmult_multi_ok (scTotal sc n + 1) sc pt n (Nat.lt_succ_self _)⟩

theorem C4_witness :
    2 ≤ SECP256K1_ECMULT_MULTI_MAX_N ∧
    ∃ r, secp256k1_ecmult_multi
        (scTotal (fun i => [5, 5].getD i 0) 2 + 1)
        (fun i => [5, 5].getD i 0) (fun i => ([3, 11].getD i 0 : Int)) 2 = .ok r :=
  ⟨by decide,
    C4_terminates (fun i => [5, 5].getD i 0) (fun i => ([3, 11].getD i 0 : Int)) 2
      (by decide)⟩

/-- C5 (counterexample): on the two-element valid heap with scalars
`10, 5` and a candidate scalar `20`, sift_floyd applied at node `1`
climbs the candidate above the node while plain sift_down leaves it at
node `1`, so the two final tree contents differ: the claimed
equivalence fails at non-root nodes. -/
theorem C5_counterexample :
    IsHeap (fun i => [10, 5, 20].getD i 0) (fun j => j) 2 ∧
    secp256k1_sift_floyd (fun i => [10, 5, 20].getD i 0) 2 2 (fun j => j) 1 2 0
      ≠ secp256k1_sift_down (fun i => [10, 5, 20].getD i 0) 2 2 (fun j => j) 1 2 0 := by
  decide

/-- C5 (amended): at the root — the node at which the program invokes
sift_floyd, from `secp256k1_replace` — for every heap state satisfying
the heap invariant and every candidate index, sift_floyd leaves the
tree array with exactly the same final contents as a plain sift_down
at the root with the same candidate. -/
theorem C5_floyd_eq_sift_down {sc : Nat → Nat} {size : Nat} (tree : Nat → Nat) (x : Nat)
    (h : IsHeap sc tree size) :
    secp256k1_sift_floyd sc size size tree 0 x
      = secp256k1_sift_down sc size size tree 0 x :=
  floyd_eq_sd_root tree x h

theorem C5_witness :
    IsHeap (fun i => [9, 5, 3, 4].getD i 0) (fun j => j) 3 ∧
    secp256k1_sift_floyd (fun i => [9, 5, 3, 4].getD i 0) 3 3 (fun j => j) 0 3
      = secp256k1_sift_down (fun i => [9, 5, 3, 4].getD i 0) 3 3 (fun j => j) 0 3 :=
  ⟨by decide, C5_floyd_eq_sift_down (fun j => j) 3 (by decide)⟩

/-- C6 (counterexample): on scalars `[3, 2]` with `first = 0` in hand
and the heap holding index `1` at the root, the driver's replace branch
makes the index returned by replace-root — the old root `1` — the NEW
in-hand `first`, and inserts the old `first = 0` into the heap; the
returned index is not discarded and the old `first` is no longer the
in-hand index, contradicting the claim as stated. -/
theorem C6_counterexample :
    mresFirst (outerBody (⟨(fun i => [3, 2].getD i 0),
        (fun i => ([5, 7].getD i 0 : Int)),
        ⟨(fun j => [1].getD j 0), 1⟩, 0⟩ : DriverState Int)) = some 1 ∧
    mresFirst (outerBody (⟨(fun i => [3, 2].getD i 0),
        (fun i => ([5, 7].getD i 0 : Int)),
        ⟨(fun j => [1].getD j 0), 1⟩, 0⟩ : DriverState Int)) ≠ some 0 ∧
    0 ∈ mresHeapMS (outerBody (⟨(fun i => [3, 2].getD i 0),
        (fun i => ([5, 7].getD i 0 : Int)),
        ⟨(fun j => [1].getD j 0), 1⟩, 0⟩ : DriverState Int)) := by
  decide

/-- C6 (amended): when `scalar(first)` is non-zero after the inner
reduction, the driver calls replace-root with `first` and the index
returned (equal to `second`, the old root) becomes the NEW in-hand
`first`, while the old `first` is installed into the heap; the
invariant that exactly one index is held outside the heap — pairwise
distinct from the heap's contents — is maintained, with the heap now
holding the old `first` in place of the old root. -/
theorem C6_replace_branch {G : Type} [AddCommMonoid G] {n : Nat} {T : G}
    (st : DriverState G) (hinv : DriverInv n T st) (hs : 0 < st.heap.size)
    (hnz : st.sc st.first % st.sc (st.heap.tree 0) ≠ 0) :
    ∃ st', outerBody st = .ok st' ∧ st'.first = st.heap.tree 0 ∧
      st'.heap.size = st.heap.size ∧
      treeMS st'.heap.tree st'.heap.size + {st.heap.tree 0}
        = treeMS st.heap.tree st.heap.size + {st.first} ∧
      (st'.first ::ₘ treeMS st'.heap.tree st'.heap.size).Nodup := by
  obtain ⟨st', hob, hinv', hfst, _, _, _, hrep⟩ := outerBody_spec st hinv hs
  obtain ⟨hsz, hms⟩ := hrep hnz
  exact ⟨st', hob, hfst, hsz, hms, hinv'.1⟩

theorem C6_witness :
    ∃ st', outerBody (⟨(fun i => [3, 2].getD i 0),
        (fun i => ([5, 7].getD i 0 : Int)),
        ⟨(fun j => [1].getD j 0), 1⟩, 0⟩ : DriverState Int) = .ok st' ∧
      st'.first = (fun j => [1].getD j 0) 0 ∧
      st'.heap.size = 1 ∧
      treeMS st'.heap.tree st'.heap.size + {(fun j => [1].getD j 0) 0}
        = treeMS (fun j => [1].getD j 0) 1 + {0} ∧
      (st'.first ::ₘ treeMS st'.heap.tree st'.heap.size).Nodup :=
  @C6_replace_branch Int _ 2 (29 : Int)
    (⟨(fun i => [3, 2].getD i 0), (fun i => ([5, 7].getD i 0 : Int)),
      ⟨(fun j => [1].getD j 0), 1⟩, 0⟩ : DriverState Int)
    (by unfold DriverInv; decide) (by decide) (by decide)

/-- C7 (counterexample): with scalars `[5, 5, 3]`, the identity tree of
size 3, and candidate index 0 whose scalar equals the larger child's
scalar, sift_down does NOT stop and place the candidate at the node:
the larger child moves up and the candidate descends, so the final
contents differ (at position 1) from the claimed stop-at-node result
`updf tree node candidate`. -/
theorem C7_counterexample :
    (fun i => [5, 5, 3].getD i 0) 0
      = (fun i => [5, 5, 3].getD i 0)
          ((fun j => j) (pickChild (fun i => [5, 5, 3].getD i 0) 3 (fun j => j) 0)) ∧
    secp256k1_sift_down (fun i => [5, 5, 3].getD i 0) 3 3 (fun j => j) 0 0 1
      ≠ updf (fun j => j) 0 0 1 := by
  decide

/-- C7 (amended): at each level sift_down compares the candidate's
scalar against the larger of the two children's scalars — the right
child considered only if present — and the candidate is placed at the
current node with the descent stopping exactly when the candidate is
STRICTLY greater than that larger child; when the candidate is smaller
OR EQUAL, the larger child moves up and the descent continues from the
vacated child position. -/
theorem C7_sift_down_step {sc : Nat → Nat} {size : Nat} (gas : Nat) (tree : Nat → Nat)
    (node x : Nat) (hn : node < size / 2) :
    (sc (tree (pickChild sc size tree node)) < sc x →
      secp256k1_sift_down sc size (gas + 1) tree node x = updf tree node x) ∧
    (sc x ≤ sc (tree (pickChild sc size tree node)) →
      secp256k1_sift_down sc size (gas + 1) tree node x
        = secp256k1_sift_down sc size gas
            (updf tree node (tree (pickChild sc size tree node)))
            (pickChild sc size tree node) x) ∧
    sc (tree (2 * node + 1)) ≤ sc (tree (pickChild sc size tree node)) ∧
    (2 * node + 2 < size →
      sc (tree (2 * node + 2)) ≤ sc (tree (pickChild sc size tree node))) := by
  refine ⟨?_, ?_, le_pickChild_left sc size tree node, fun h2 => le_pickChild_right h2⟩
  · intro hlt
    simp only [secp256k1_sift_down, if_pos hn]
    rw [if_pos hlt]
  · intro hle
    simp only [secp256k1_sift_down, if_pos hn]
    rw [if_neg (by omega)]

theorem C7_witness :
    0 < 3 / 2 ∧
    (secp256k1_sift_down (fun i => [5, 9, 3].getD i 0) 3 3 (fun j => j) 0 0
      = secp256k1_sift_down (fun i => [5, 9, 3].getD i 0) 3 2
          (updf (fun j => j) 0
            ((fun j => j) (pickChild (fun i => [5, 9, 3].getD i 0) 3 (fun j => j) 0)))
          (pickChild (fun i => [5, 9, 3].getD i 0) 3 (fun j => j) 0) 0) ∧
    (fun i => [5, 9, 3].getD i 0) ((fun j => j) (2 * 0 + 1))
      ≤ (fun i => [5, 9, 3].getD i 0)
          ((fun j => j) (pickChild (fun i => [5, 9, 3].getD i 0) 3 (fun j => j) 0)) ∧
    (fun i => [5, 9, 3].getD i 0) ((fun j => j) (2 * 0 + 2))
      ≤ (fun i => [5, 9, 3].getD i 0)
          ((fun j => j) (pickChild (fun i => [5, 9, 3].getD i 0) 3 (fun j => j) 0)) :=
  ⟨by decide,
    (@C7_sift_down_step (fun i => [5, 9, 3].getD i 0) 3 2 (fun j => j) 0 0
      (by decide)).2.1 (by decide),
    (@C7_sift_down_step (fun i => [5, 9, 3].getD i 0) 3 2 (fun j => j) 0 0
      (by decide)).2.2.1,
    (@C7_sift_down_step (fun i => [5, 9, 3].getD i 0) 3 2 (fun j => j) 0 0
      (by decide)).2.2.2 (by decide)⟩

/-- C8: on any non-empty heap, remove-root returns the old root's index
and decreases the size by exactly one, restoring the invariant (via
sift-down of the logically-last element when the heap stays non-empty),
while replace-root returns the old root's index and leaves the size
unchanged. -/
theorem C8_remove_replace_shape (sc : Nat → Nat) (heap : secp256k1_scalar_heap) (x : Nat)
    (h : 0 < heap.size) (hh : IsHeap sc heap.tree heap.size) :
    (secp256k1_heap_remove sc heap).1 = heap.tree 0 ∧
    (secp256k1_heap_remove sc heap).2.size + 1 = heap.size ∧
    IsHeap sc (secp256k1_heap_remove sc heap).2.tree
      (secp256k1_heap_remove sc heap).2.size ∧
    (secp256k1_replace sc heap x).1 = heap.tree 0 ∧
    (secp256k1_replace sc heap x).2.size = heap.size := by
  refine ⟨heap_remove_fst sc heap, ?_, heap_remove_isHeap sc heap hh,
    replace_fst sc heap x, replace_size sc heap x⟩
  rw [heap_remove_size]
  omega

theorem C8_witness :
    (0 < 3 ∧ IsHeap (fun i => [9, 5, 3, 7].getD i 0) (fun j => j) 3) ∧
    ((secp256k1_heap_remove (fun i => [9, 5, 3, 7].getD i 0) ⟨(fun j => j), 3⟩).1
        = (fun j => j) 0 ∧
      (secp256k1_heap_remove (fun i => [9, 5, 3, 7].getD i 0) ⟨(fun j => j), 3⟩).2.size + 1
        = 3 ∧
      IsHeap (fun i => [9, 5, 3, 7].getD i 0)
        (secp256k1_heap_remove (fun i => [9, 5, 3, 7].getD i 0) ⟨(fun j => j), 3⟩).2.tree
        (secp256k1_heap_remove (fun i => [9, 5, 3, 7].getD i 0) ⟨(fun j => j), 3⟩).2.size ∧
      (secp256k1_replace (fun i => [9, 5, 3, 7].getD i 0) ⟨(fun j => j), 3⟩ 3).1
        = (fun j => j) 0 ∧
      (secp256k1_replace (fun i => [9, 5, 3, 7].getD i 0) ⟨(fun j => j), 3⟩ 3).2.size = 3) :=
  ⟨⟨by decide, by decide⟩,
    C8_remove_replace_shape (fun i => [9, 5, 3, 7].getD i 0) ⟨(fun j => j), 3⟩ 3
      (by decide) (by decide)⟩

/-- C9: the driver returns the group identity whenever no term is
active: for `n = 0`, for any `n` with all scalars zero, and for any
`n` with every point equal to the point at infinity — for every fuel,
since the empty-heap exit happens before any loop runs. -/
theorem C9_identity_cases {G : Type} [AddCommMonoid G] [DecidableEq G]
    (fuel : Nat) (sc : Nat → Nat) (pt : Nat → G) (n : Nat) :
    secp256k1_ecmult_multi fuel sc pt 0 = .ok 0 ∧
    ((∀ i, i < n → sc i = 0) → secp256k1_ecmult_multi fuel sc pt n = .ok 0) ∧
    ((∀ i, i < n → pt i = 0) → secp256k1_ecmult_multi fuel sc pt n = .ok 0) := by
  have hdrv : ∀ (m : Nat), activeIndices sc pt m = [] →
      secp256k1_ecmult_multi fuel sc pt m = .ok 0 := by
    intro m hact
    have hsz : (secp256k1_heap_init sc pt m).size = 0 := by
      show (activeIndices sc pt m).length = 0
      rw [hact]
      rfl
    simp only [secp256k1_ecmult_multi]
    rw [if_pos hsz]
  refine ⟨hdrv 0 rfl, ?_, ?_⟩
  · intro hz
    apply hdrv
    rw [activeIndices, List.filter_eq_nil_iff]
    intro a ha
    simp only [decide_eq_true_eq, not_and, not_not]
    intro hsa
    exact absurd (hz a (List.mem_range.mp ha)) hsa
  · intro hz
    apply hdrv
    rw [activeIndices, List.filter_eq_nil_iff]
    intro a ha
    simp only [decide_eq_true_eq, not_and, not_not]
    intro _
    exact hz a (List.mem_range.mp ha)

theorem C9_witness :
    secp256k1_ecmult_multi 5 (fun _ => 1) (fun _ => (7 : Int)) 0 = .ok 0 ∧
    ((∀ i, i < 2 → (fun _ => (0 : Nat)) i = 0) ∧
      secp256k1_ecmult_multi 5 (fun _ => (0 : Nat)) (fun _ => (7 : Int)) 2 = .ok 0) ∧
    ((∀ i, i < 2 → (fun _ => (0 : Int)) i = 0) ∧
      secp256k1_ecmult_multi 5 (fun _ => (1 : Nat)) (fun _ => (0 : Int)) 2 = .ok 0) :=
  ⟨(C9_identity_cases 5 (fun _ => 1) (fun _ => (7 : Int)) 0).1,
    ⟨by decide,
      (C9_identity_cases 5 (fun _ => (0 : Nat)) (fun _ => (7 : Int)) 2).2.1
        (by intro i _; rfl)⟩,
    ⟨by decide,
      (C9_identity_cases 5 (fun _ => (1 : Nat)) (fun _ => (0 : Int)) 2).2.2
        (by intro i _; rfl)⟩⟩

/-- C10: throughout the driver's execution the in-hand index together
with the heap's stored indices form a pairwise-distinct collection of
indices below `n` — established by initialization plus the first pop,
with `first` never equal to the current root — and one outer-loop
iteration started from any such state preserves the discipline and
never modifies (nor zeroes) the scalar of an index while it sits inside
the heap: only `sc[first]` is written. -/
theorem C10_index_discipline {G : Type} [AddCommMonoid G] [DecidableEq G]
    (sc : Nat → Nat) (pt : Nat → G) (n : Nat) (T : G) (st : DriverState G) :
    ((secp256k1_heap_init sc pt n).size ≠ 0 →
      DriverInv n (∑ i ∈ Finset.range n, sc i • pt i)
        (⟨sc, pt, (secp256k1_heap_remove sc (secp256k1_heap_init sc pt n)).2,
          (secp256k1_heap_remove sc (secp256k1_heap_init sc pt n)).1⟩ : DriverState G)) ∧
    (DriverInv n T st → 0 < st.heap.size → st.first ≠ st.heap.tree 0) ∧
    (DriverInv n T st → 0 < st.heap.size →
      ∃ st', outerBody st = .ok st' ∧ DriverInv n T st' ∧
        ∀ i ∈ treeMS st.heap.tree st.heap.size, st'.sc i = st.sc i) := by
  refine ⟨driver_init_inv sc pt n, ?_, ?_⟩
  · intro hinv hs
    have hFnm : st.first ∉ treeMS st.heap.tree st.heap.size :=
      (Multiset.nodup_cons.mp hinv.1).1
    exact fun h => hFnm (h ▸ tree0_mem_treeMS hs)
  · intro hinv hs
    obtain ⟨st', hob, hinv', _, hsceq, _, _, _⟩ := outerBody_spec st hinv hs
    refine ⟨st', hob, hinv', ?_⟩
    intro i hi
    have hFnm : st.first ∉ treeMS st.heap.tree st.heap.size :=
      (Multiset.nodup_cons.mp hinv.1).1
    rw [hsceq]
    exact updf_ne st.sc _ (fun h => hFnm (h ▸ hi))

theorem C10_witness :
    DriverInv 2 ((29 : Int))
      (⟨(fun i => [3, 2].getD i 0), (fun i => ([5, 7].getD i 0 : Int)),
        (secp256k1_heap_remove (fun i => [3, 2].getD i 0)
          (secp256k1_heap_init (fun i => [3, 2].getD i 0)
            (fun i => ([5, 7].getD i 0 : Int)) 2)).2,
        (secp256k1_heap_remove (fun i => [3, 2].getD i 0)
          (secp256k1_heap_init (fun i => [3, 2].getD i 0)
            (fun i => ([5, 7].getD i 0 : Int)) 2)).1⟩ : DriverState Int) ∧
    (⟨(fun i => [3, 2].getD i 0), (fun i => ([5, 7].getD i 0 : Int)),
        ⟨(fun j => [1].getD j 0), 1⟩, 0⟩ : DriverState Int).first
      ≠ (⟨(fun i => [3, 2].getD i 0), (fun i => ([5, 7].getD i 0 : Int)),
        ⟨(fun j => [1].getD j 0), 1⟩, 0⟩ : DriverState Int).heap.tree 0 ∧
    (∃ st', outerBody (⟨(fun i => [3, 2].getD i 0), (fun i => ([5, 7].getD i 0 : Int)),
        ⟨(fun j => [1].getD j 0), 1⟩, 0⟩ : DriverState Int) = .ok st' ∧
      DriverInv 2 ((29 : Int)) st' ∧
      ∀ i ∈ treeMS (fun j => [1].getD j 0) 1,
        st'.sc i = (fun i => [3, 2].getD i 0) i) := by
  have hsum29 : (∑ i ∈ Finset.range 2,
      (fun i => [3, 2].getD i 0) i • (fun i => ([5, 7].getD i 0 : Int)) i) = (29 : Int) := by
    decide
  refine ⟨?_, ?_, ?_⟩
  · have h1 := (C10_index_discipline (fun i => [3, 2].getD i 0)
      (fun i => ([5, 7].getD i 0 : Int)) 2 (29 : Int)
      (⟨(fun i => [3, 2].getD i 0), (fun i => ([5, 7].getD i 0 : Int)),
        ⟨(fun j => [1].getD j 0), 1⟩, 0⟩ : DriverState Int)).1 (by decide)
    rw [hsum29] at h1
    exact h1
  · exact (C10_index_discipline (fun i => [3, 2].getD i 0)
      (fun i => ([5, 7].getD i 0 : Int)) 2 (29 : Int)
      (⟨(fun i => [3, 2].getD i 0), (fun i => ([5, 7].getD i 0 : Int)),
        ⟨(fun j => [1].getD j 0), 1⟩, 0⟩ : DriverState Int)).2.1
      (by unfold DriverInv; decide) (by decide)
  · exact (C10_index_discipline (fun i => [3, 2].getD i 0)
      (fun i => ([5, 7].getD i 0 : Int)) 2 (29 : Int)
      (⟨(fun i => [3, 2].getD i 0), (fun i => ([5, 7].getD i 0 : Int)),
        ⟨(fun j => [1].getD j 0), 1⟩, 0⟩ : DriverState Int)).2.2
      (by unfold DriverInv; decide) (by decide)
